import Mathlib

/-!
Verification development for the `a3lib.py` PBO/RSA signing library.

The Python source is shallowly embedded: byte strings become `List Nat`
(each element a byte value), hex strings become `List Char`, Python big
integers become `Nat`, and file objects become explicit `(content, pos)`
states.  Loops are translated to structural or fuel-based recursion; a
fuel argument models the iteration count of a `while` loop and is always
instantiated large enough (the lemmas prove sufficiency).  SHA-1 (from
Python's `hashlib`, outside this repository) is implemented concretely
below, following FIPS 180, so that all hash claims are executable.
-/

set_option maxRecDepth 10000

namespace A3

/-- Value of a byte list read in big-endian order (most significant first). -/
def beVal (l : List Nat) : Nat := l.foldl (fun a b => a * 256 + b) 0

/-- Fixed-width big-endian byte encoding of a natural number; mirrors
`int_to_bytes(n, length, 'big')` from the source (truncating like
`n.to_bytes` would only when `n < 256 ^ length`, which we always prove). -/
def beBytes (n : Nat) : Nat → List Nat
  | 0 => []
  | k + 1 => beBytes (n / 256) k ++ [n % 256]

/-- Numeric value of one hex digit, as `int(s, 16)` assigns it (the source
only ever feeds valid lowercase hex digests into `long(..., 16)`). -/
def hexVal (c : Char) : Nat :=
  if '0' ≤ c ∧ c ≤ '9' then c.toNat - '0'.toNat
  else if 'a' ≤ c ∧ c ≤ 'f' then c.toNat - 'a'.toNat + 10
  else if 'A' ≤ c ∧ c ≤ 'F' then c.toNat - 'A'.toNat + 10
  else 0

/-- Lowercase hex digit character for a value below 16, as produced by
Python's `%x` formatting / `hexdigest`. -/
def hexDig (n : Nat) : Char :=
  if n < 10 then Char.ofNat ('0'.toNat + n) else Char.ofNat ('a'.toNat + n - 10)

/-- Two lowercase hex characters of one byte. -/
def toHexByte (b : Nat) : List Char := [hexDig (b / 16), hexDig (b % 16)]

/-- Lowercase hex string of a byte string, as `bytes.hex()` / `hexdigest()`. -/
def toHex (l : List Nat) : List Char := (l.map toHexByte).flatten

/-- Fold a hex digit string to its value (most significant digit first). -/
def hexFold (s : List Char) : Nat := s.foldl (fun a c => a * 16 + hexVal c) 0

/-- Python's `long(s, 16)` on the strings the source builds: an optional
`0x` prefix followed by hex digits. -/
def pyInt16 (s : List Char) : Nat :=
  match s with
  | '0' :: 'x' :: rest => hexFold rest
  | other => hexFold other

/-- Hex digit characters of the hard-coded SHA-1 `DigestInfo` prefix of
`padding` (a3lib.py line 31). -/
def digestInfoHex : List Char :=
  ['3','0','2','1','3','0','0','9','0','6','0','5','2','b','0','e',
   '0','3','0','2','1','a','0','5','0','0','0','4','1','4']

/-- Byte values of the SHA-1 `DigestInfo` prefix. -/
def digestInfoBytes : List Nat :=
  [0x30, 0x21, 0x30, 0x09, 0x06, 0x05, 0x2b, 0x0e,
   0x03, 0x02, 0x1a, 0x05, 0x00, 0x04, 0x14]

/-- Embedding of `padding(hash_value, tlen)` (a3lib.py lines 28-31):
build the hex string `0x0001` ++ `ff` times the pad count ++ `00` ++
DigestInfo ++ digest hex, and parse it with `long(..., 16)`.  Note the
pad count `tlen - len(hash_value)//2 - 3 - 15` is clamped at zero here,
exactly as Python's `'ff' * negative` yields the empty string. -/
def padding (hash_value : List Char) (tlen : Nat) : Nat :=
  pyInt16 (['0','x'] ++ ['0','0','0','1'] ++
    (List.replicate (tlen - hash_value.length / 2 - 3 - 15) ['f','f']).flatten ++
    ['0','0'] ++ digestInfoHex ++ hash_value)

/-! SHA-1, the `hashlib.sha1` primitive the source imports.  Implemented
on byte lists following FIPS 180-1 (verified against the standard test
vectors while developing), so every hash claim is executable. -/

/-- Rotate a 32-bit word left by `k` bits. -/
def rotl (k x : Nat) : Nat := ((x <<< k) ||| (x >>> (32 - k))) % 4294967296

/-- Big-endian bytes of one 32-bit word. -/
def be4 (x : Nat) : List Nat :=
  [x / 2 ^ 24 % 256, x / 2 ^ 16 % 256, x / 2 ^ 8 % 256, x % 256]

/-- FIPS 180 message padding: `0x80`, zeros to 56 mod 64, 8-byte bit length. -/
def sha1pad (msg : List Nat) : List Nat :=
  msg ++ [0x80] ++ List.replicate ((119 - msg.length % 64) % 64) 0 ++
    beBytes (8 * msg.length) 8

/-- Split into 64-byte blocks (fuel-driven; fuel `l.length` suffices). -/
def blocksF : Nat → List Nat → List (List Nat)
  | 0, _ => []
  | f + 1, l => if l.isEmpty then [] else l.take 64 :: blocksF f (l.drop 64)

/-- The 16 big-endian words of one 64-byte block. -/
def wordsOfBlock (b : List Nat) : List Nat :=
  (List.range 16).map (fun i => beVal ((b.drop (4 * i)).take 4))

/-- Extend 16 words to the 80-word message schedule. -/
def extendW (w : List Nat) : List Nat :=
  (List.range 64).foldl (fun w _ =>
    w ++ [rotl 1 (w.getD (w.length - 3) 0 ^^^ w.getD (w.length - 8) 0 ^^^
      w.getD (w.length - 14) 0 ^^^ w.getD (w.length - 16) 0)]) w

/-- One of the 80 SHA-1 rounds. -/
def sha1round (w : List Nat) (st : Nat × Nat × Nat × Nat × Nat) (i : Nat) :
    Nat × Nat × Nat × Nat × Nat :=
  let (a, b, c, d, e) := st
  let f := if i < 20 then (b &&& c) ||| ((b ^^^ 0xffffffff) &&& d)
           else if i < 40 then b ^^^ c ^^^ d
           else if i < 60 then (b &&& c) ||| (b &&& d) ||| (c &&& d)
           else b ^^^ c ^^^ d
  let k := if i < 20 then 0x5a827999 else if i < 40 then 0x6ed9eba1
           else if i < 60 then 0x8f1bbcdc else 0xca62c1d6
  ((rotl 5 a + f + e + k + w.getD i 0) % 4294967296, a, rotl 30 b, c, d)

/-- Compress one 64-byte block into the running state. -/
def sha1compress (h : Nat × Nat × Nat × Nat × Nat) (block : List Nat) :
    Nat × Nat × Nat × Nat × Nat :=
  let w := extendW (wordsOfBlock block)
  let (a, b, c, d, e) := (List.range 80).foldl (sha1round w) h
  ((h.1 + a) % 4294967296, (h.2.1 + b) % 4294967296, (h.2.2.1 + c) % 4294967296,
   (h.2.2.2.1 + d) % 4294967296, (h.2.2.2.2 + e) % 4294967296)

/-- SHA-1 digest (20 bytes) of a byte list. -/
def sha1 (msg : List Nat) : List Nat :=
  let p := sha1pad msg
  let h := (blocksF p.length p).foldl sha1compress
    (0x67452301, 0xefcdab89, 0x98badcfe, 0x10325476, 0xc3d2e1f0)
  be4 h.1 ++ be4 h.2.1 ++ be4 h.2.2.1 ++ be4 h.2.2.2.1 ++ be4 h.2.2.2.2

/-! RSA sign and verify, as `sign` and `verify` compute them
(a3lib.py lines 678-683 and 707-718): Python's three-argument
`pow(b, e, n)` is `b ^ e % n`. -/

/-- One signature value, `sig = pow(padding(...), d, n)` from `sign`. -/
def rsaSign (m d n : Nat) : Nat := m ^ d % n

/-- One verification comparison, `padding(...) == pow(sig, e, n)` from
`verify`. -/
def rsaVerify (m s e n : Nat) : Bool := m == s ^ e % n

/-! The PBO container model.  Byte strings are `List Nat`, file objects
are a `(content, pos)` pair.  Members read from an existing archive
(`fp is None` on their `PboInfo`, data living at `data_offset` of the
backing file) are the only kind the hash/verify claims exercise, so
`get_data_size`/`get_timestamp` take the `fp is None` branch. -/

/-- A binary file object: full contents plus current position. -/
structure Handle where
  content : List Nat
  pos : Nat
deriving DecidableEq

/-- `file.read(n)` for `n ≥ 0`: at most `n` bytes starting at `pos`
(fewer at end of file), advancing the position by what was read. -/
def readH (h : Handle) (n : Nat) : List Nat × Handle :=
  let data := (h.content.drop h.pos).take n
  (data, ⟨h.content, h.pos + data.length⟩)

/-- `unpack_asciiz` (a3lib.py 19-26) on the remaining stream: the bytes
before the first NUL, plus the rest after it.  `none` is the case with
no NUL terminator left; there the Python loop never terminates, which
`asciizSteps` below makes explicit. -/
def unpack_asciiz : List Nat → Option (List Nat × List Nat)
  | [] => none
  | b :: rest =>
    if b = 0 then some ([], rest)
    else (unpack_asciiz rest).map (fun sr => (b :: sr.1, sr.2))

/-- The `unpack_asciiz` while-loop itself, step-indexed: each step is one
`file.read(1)` plus the loop test.  At end of file `read(1)` returns the
empty string, which is never equal to the single NUL byte, so the state
no longer changes and no step count makes the loop exit. -/
def asciizSteps : Nat → Handle → List Nat → Option (List Nat × Handle)
  | 0, _, _ => none
  | fuel + 1, h, acc =>
    let r := readH h 1
    if r.1 = [0] then some (acc, r.2) else asciizSteps fuel r.2 (acc ++ r.1)

/-- ASCII lowercasing of one byte, as `bytes.lower()` does. -/
def lowerByte (b : Nat) : Nat := if 65 ≤ b ∧ b ≤ 90 then b + 32 else b

/-- `bytes.lower()`. -/
def lowerB (s : List Nat) : List Nat := s.map lowerByte

/-- `s.endswith(tuple_of_suffixes)`. -/
def endsWithAny (s : List Nat) (suffixes : List (List Nat)) : Bool :=
  suffixes.any (fun suf => suf.isSuffixOf s)

/-- The version-2 exclusion list of `check_file_hash` (a3lib.py 379-382):
".paa .jpg .p3d .tga .rvmat .lip .ogg .wss .png .rtm .pac .fxy .wrp". -/
def v2Excluded : List (List Nat) :=
  [[46, 112, 97, 97],
   [46, 106, 112, 103],
   [46, 112, 51, 100],
   [46, 116, 103, 97],
   [46, 114, 118, 109, 97, 116],
   [46, 108, 105, 112],
   [46, 111, 103, 103],
   [46, 119, 115, 115],
   [46, 112, 110, 103],
   [46, 114, 116, 109],
   [46, 112, 97, 99],
   [46, 102, 120, 121],
   [46, 119, 114, 112]]

/-- The version-3 inclusion list of `check_file_hash` (a3lib.py 385-387):
".sqf .inc .bikb .ext .fsm .sqm .hpp .cfg .sqs .h". -/
def v3Included : List (List Nat) :=
  [[46, 115, 113, 102],
   [46, 105, 110, 99],
   [46, 98, 105, 107, 98],
   [46, 101, 120, 116],
   [46, 102, 115, 109],
   [46, 115, 113, 109],
   [46, 104, 112, 112],
   [46, 99, 102, 103],
   [46, 115, 113, 115],
   [46, 104]]

/-- The bytes of the literal `b'nothing'`. -/
def bNothing : List Nat := [110, 111, 116, 104, 105, 110, 103]

/-- The bytes of the literal `b'gnihton'`. -/
def bGnihton : List Nat := [103, 110, 105, 104, 116, 111, 110]

/-- The bytes of the header-extension key `b'prefix'`. -/
def keyPfx : List Nat := [112, 114, 101, 102, 105, 120]

/-- One index record of the archive (class `PboInfo`, a3lib.py 342-355),
for a member whose data lives in the backing file (`fp is None`). -/
structure PboInfo where
  filename : List Nat
  packing_method : Nat
  original_size : Nat
  reserved : Nat
  timestamp : Nat
  data_size : Nat
  data_offset : Nat
deriving DecidableEq

/-- `get_data_size` for an archived member (`fp is None` branch). -/
def PboInfo.get_data_size (i : PboInfo) : Nat := i.data_size

/-- `get_timestamp` for an archived member (`fp is None` branch). -/
def PboInfo.get_timestamp (i : PboInfo) : Nat := i.timestamp

/-- `check_name_hash` (a3lib.py 371-373). -/
def PboInfo.check_name_hash (i : PboInfo) : Bool :=
  decide (0 < i.get_data_size)

/-- `check_file_hash` (a3lib.py 375-389) for version 2 or 3.  Any other
version raises `ValueError` in the source; `PboFile._filehash` below
returns `none` in that case, so the final `false` branch here is never
reached from it. -/
def PboInfo.check_file_hash (i : PboInfo) (version : Nat) : Bool :=
  if version = 2 then
    decide (0 < i.get_data_size) && !(endsWithAny (lowerB i.filename) v2Excluded)
  else if version = 3 then
    decide (0 < i.get_data_size) && endsWithAny (lowerB i.filename) v3Included
  else false

/-- The archive model (class `PboFile`, a3lib.py 448-464): leading index
record (its ASCIIZ name and five u32 words), the insertion-ordered
header extension, the insertion-ordered member dictionary as an
association list, and the bytes of the backing file `fp`. -/
structure PboFile where
  header_name : List Nat
  header_words : Nat × Nat × Nat × Nat × Nat
  header_extension : List (List Nat × List Nat)
  filedict : List (List Nat × PboInfo)
  content : List Nat
deriving DecidableEq

/-- `infolist` (a3lib.py 575-577). -/
def PboFile.infolist (p : PboFile) : List PboInfo := p.filedict.map (·.2)

/-- `PboExtFile.read(n)` (a3lib.py 417-427) for a member slice
`[dOff, dOff + dSize)` of the backing file, at absolute position `pos`:
bounded by the slice end and by the end of file. -/
def extRead (content : List Nat) (dOff dSize pos n : Nat) : List Nat × Nat :=
  let rs := min n (dOff + dSize - pos)
  let data := (content.drop pos).take rs
  (data, pos + data.length)

/-- The chunked member loop of `_filehash` (a3lib.py 606-609):
`while rlen > 0: update(file.read(min(CHUNK, rlen))); rlen = size - tell()`.
`tell()` is `pos - dOff`.  Fuel bounds the iteration count; `dSize + 1`
suffices whenever the member slice lies inside the file (the source
loops forever when it does not and the reads return nothing). -/
def memberChunks : Nat → List Nat → Nat → Nat → Nat → List Nat → List Nat
  | 0, _, _, _, _, acc => acc
  | fuel + 1, content, dOff, dSize, pos, acc =>
    let rlen := dSize - (pos - dOff)
    if rlen = 0 then acc
    else
      let r := extRead content dOff dSize pos (min 4096 rlen)
      memberChunks fuel content dOff dSize r.2 (acc ++ r.1)

/-- The chunked member loop of `_export` (a3lib.py 524-530):
`data = f.read(CHUNK); while len(data) > 0: ...; data = f.read(CHUNK)`. -/
def exportChunks : Nat → List Nat → Nat → Nat → Nat → List Nat → List Nat
  | 0, _, _, _, _, acc => acc
  | fuel + 1, content, dOff, dSize, pos, acc =>
    let r := extRead content dOff dSize pos 4096
    if r.1 = [] then acc
    else exportChunks fuel content dOff dSize r.2 (acc ++ r.1)

/-- The chunked whole-file loop of `hash1` (a3lib.py 630-633). -/
def hash1Chunks : Nat → Handle → Nat → List Nat → List Nat × Handle
  | 0, h, _, acc => (acc, h)
  | fuel + 1, h, endPos, acc =>
    let rlen := endPos - h.pos
    if rlen = 0 then (acc, h)
    else
      let r := readH h (min 4096 rlen)
      hash1Chunks fuel r.2 endPos (acc ++ r.1)

/-- `hash1` (a3lib.py 619-637): remember the position, seek 21 bytes
before the end (an `OSError`, here `none`, if the file is shorter than
21 bytes), hash everything before that point, restore the position. -/
def hash1F (h : Handle) : Option (List Nat × Handle) :=
  if h.content.length < 21 then none
  else
    let oldpos := h.pos
    let endPos := h.content.length - 21
    let r := hash1Chunks (endPos + 1) ⟨h.content, 0⟩ endPos []
    some (sha1 r.1, ⟨h.content, oldpos⟩)

/-- The comparison key of `_namehash`: `v.filename.lower()`, compared as
Python compares bytes (lexicographically). -/
def infoLe (a b : PboInfo) : Prop := lowerB a.filename ≤ lowerB b.filename

instance : DecidableRel infoLe :=
  fun a b => decidable_of_iff (lowerB a.filename ≤ lowerB b.filename) Iff.rfl

/-- `_namehash` (a3lib.py 590-596), returning the digest bytes: hash the
lowercased filenames of the members that pass `check_name_hash`, visiting
members sorted by lowercased filename (Python's stable `sorted`). -/
def PboFile._namehash (p : PboFile) : List Nat :=
  sha1 ((List.insertionSort infoLe p.infolist).foldl
    (fun acc i => if i.check_name_hash then acc ++ lowerB i.filename else acc) [])

/-- `_filehash` (a3lib.py 598-617), returning the digest bytes: hash the
data of every member passing `check_file_hash`, in stored order; if none
qualified, hash the sentinel literal instead.  `none` models the
`ValueError` on a version other than 2 or 3. -/
def PboFile._filehash (p : PboFile) (version : Nat) : Option (List Nat) :=
  if version = 2 ∨ version = 3 then
    let st := p.infolist.foldl
      (fun (st : Bool × List Nat) i =>
        if i.check_file_hash version then
          (false, st.2 ++ memberChunks (i.data_size + 1) p.content
            i.data_offset i.data_size i.data_offset [])
        else st) (true, [])
    some (sha1 (st.2 ++
      (if st.1 then (if version = 2 then bNothing else bGnihton) else [])))
  else none

/-- The conditional tail `header_extension[b'prefix'] + b'\\'` that
`hash` feeds into hash2 and hash3 (a3lib.py 650-651 and 660-661),
empty when the key `b'prefix'` is absent. -/
def pfxInject (p : PboFile) : List Nat :=
  match p.header_extension.lookup keyPfx with
  | some v => v ++ [92]
  | none => []

/-- `hash` (a3lib.py 639-664): the three digests for a signature
version, reading the backing file from position `fpPos`. -/
def PboFile.hash (p : PboFile) (fpPos : Nat) (version : Nat) :
    Option (List Nat × List Nat × List Nat) :=
  match hash1F ⟨p.content, fpPos⟩ with
  | none => none
  | some (d1, _) =>
    let nm := p._namehash
    let h2 := sha1 (d1 ++ nm ++ pfxInject p)
    match p._filehash version with
    | none => none
    | some fh => some (d1, h2, sha1 (fh ++ nm ++ pfxInject p))

/-- The decision and exit status of `verify` (a3lib.py 698-730): compare
each recomputed padded hash against `pow(sig, e, n)` and exit 0 when all
three match, 1 otherwise. -/
def verifyExit (p : PboFile) (bitlen e n sig1 sig2 sig3 version : Nat) :
    Option Nat :=
  match p.hash 0 version with
  | none => none
  | some (d1, h2, h3) =>
    let v1 := rsaVerify (padding (toHex d1) (bitlen / 8)) sig1 e n
    let v2 := rsaVerify (padding (toHex h2) (bitlen / 8)) sig2 e n
    let v3 := rsaVerify (padding (toHex h3) (bitlen / 8)) sig3 e n
    some (if v1 && v2 && v3 then 0 else 1)

/-- A `read(n)` whose bytes go straight into `struct.unpack` (which
raises `struct.error`, here `none`, when fewer than `n` bytes remain). -/
def readN (s : List Nat) (n : Nat) : Option (List Nat × List Nat) :=
  if n ≤ s.length then some (s.take n, s.drop n) else none

/-- Little-endian value of a byte list, as `struct.unpack('<I', ...)`. -/
def fromLE32 (b : List Nat) : Nat := b.foldr (fun x acc => x + 256 * acc) 0

/-- The five u32 fields of one 20-byte index record. -/
def parse5 (b : List Nat) : Nat × Nat × Nat × Nat × Nat :=
  (fromLE32 (b.take 4), fromLE32 ((b.drop 4).take 4),
   fromLE32 ((b.drop 8).take 4), fromLE32 ((b.drop 12).take 4),
   fromLE32 ((b.drop 16).take 4))

/-- The header-extension loop of `from_file` (a3lib.py 481-484): read
NUL-terminated key/value pairs until an empty key.  Fuel bounds the
iterations; `s.length + 1` always suffices because every round consumes
at least one byte. -/
def parseExtPairs : Nat → List Nat →
    Option (List (List Nat × List Nat) × List Nat)
  | 0, _ => none
  | fuel + 1, s =>
    match unpack_asciiz s with
    | none => none
    | some (k, s1) =>
      if k = [] then some ([], s1)
      else
        match unpack_asciiz s1 with
        | none => none
        | some (v, s2) =>
          match parseExtPairs fuel s2 with
          | none => none
          | some (ps, s3) => some ((k, v) :: ps, s3)

/-- The index loop of `from_file` (a3lib.py 485-490): read records until
an empty filename.  `data_offset` is filled in by `assignOffsets`. -/
def parseEntries : Nat → List Nat → Option (List PboInfo × List Nat)
  | 0, _ => none
  | fuel + 1, s =>
    match unpack_asciiz s with
    | none => none
    | some (nm, s1) =>
      if nm = [] then some ([], s1)
      else
        match readN s1 20 with
        | none => none
        | some (r20, s2) =>
          match parseEntries fuel s2 with
          | none => none
          | some (is, s3) =>
            let w := parse5 r20
            some (⟨nm, w.1, w.2.1, w.2.2.1, w.2.2.2.1, w.2.2.2.2, 0⟩ :: is, s3)

/-- The running-offset assignment of `from_file` (a3lib.py 492-495). -/
def assignOffsets (off : Nat) : List PboInfo → List PboInfo
  | [] => []
  | i :: rest => { i with data_offset := off } :: assignOffsets (off + i.data_size) rest

/-- `from_file` (a3lib.py 466-499), also returning the 20 padding bytes
it skips and the remaining stream (the data region and trailer), which
the round-trip validity predicate constrains.  Duplicate filenames would
collapse in the Python `OrderedDict`; the association list keeps them,
and the round-trip theorem's strict sortedness hypothesis rules them
out. -/
def fromFileAux (content : List Nat) :
    Option (PboFile × List Nat × List Nat) :=
  match unpack_asciiz content with
  | none => none
  | some (name0, s1) =>
    match readN s1 20 with
    | none => none
    | some (hb, s2) =>
      match parseExtPairs (s2.length + 1) s2 with
      | none => none
      | some (ext, s3) =>
        match parseEntries (s3.length + 1) s3 with
        | none => none
        | some (ents, s4) =>
          let emptyB := s4.take 20
          let s5 := s4.drop 20
          let dataStart := content.length - s5.length
          let ents2 := assignOffsets dataStart ents
          some (⟨name0, parse5 hb, ext, ents2.map (fun i => (i.filename, i)),
            content⟩, emptyB, s5)

/-- `PboFile.from_file` on a byte stream. -/
def PboFile.from_file (content : List Nat) : Option PboFile :=
  (fromFileAux content).map (·.1)

/-- `struct.pack('<I', n)`: four little-endian bytes. -/
def le32 (n : Nat) : List Nat :=
  [n % 256, n / 256 % 256, n / 65536 % 256, n / 16777216 % 256]

/-- `struct.pack('s', b)`: the first byte, or a NUL when `b` is empty. -/
def packS1 : List Nat → List Nat
  | [] => [0]
  | b :: _ => [b]

/-- The serialized header-extension pairs (`_export`, a3lib.py 512-514). -/
def extBytes (ext : List (List Nat × List Nat)) : List Nat :=
  (ext.map (fun kv => kv.1 ++ [0] ++ kv.2 ++ [0])).flatten

/-- One serialized index record (`_export`, a3lib.py 516-520). -/
def entryBytes (i : PboInfo) : List Nat :=
  i.filename ++ [0] ++ le32 i.packing_method ++ le32 i.original_size ++
    le32 i.reserved ++ le32 i.get_timestamp ++ le32 i.get_data_size

/-- The ordering `sorted(self.filedict.items())` uses: pair comparison
on the filename keys (with unique keys the `PboInfo` component is never
compared). -/
def pairLe (a b : List Nat × PboInfo) : Prop := a.1 ≤ b.1

instance : DecidableRel pairLe :=
  fun a b => decidable_of_iff (a.1 ≤ b.1) Iff.rfl

/-- `_export` (a3lib.py 509-535): serialize header, extension pairs,
sorted index, 21 NUL bytes, the member payloads in sorted order, then a
NUL and the 20 big-endian bytes of the SHA-1 of everything written. -/
def PboFile._export (p : PboFile) : List Nat :=
  let sorted := List.insertionSort pairLe p.filedict
  let header := packS1 p.header_name ++ le32 p.header_words.1 ++
    le32 p.header_words.2.1 ++ le32 p.header_words.2.2.1 ++
    le32 p.header_words.2.2.2.1 ++ le32 p.header_words.2.2.2.2 ++
    extBytes p.header_extension ++ [0] ++
    (sorted.map (fun kv => entryBytes kv.2)).flatten ++ List.replicate 21 0
  let payload := (sorted.map (fun kv =>
    exportChunks (kv.2.data_size + 1) p.content kv.2.data_offset
      kv.2.data_size kv.2.data_offset [])).flatten
  header ++ payload ++ [0] ++
    beBytes (pyInt16 (toHex (sha1 (header ++ payload)))) 20

instance : IsTotal PboInfo infoLe := ⟨fun _ _ => le_total _ _⟩

instance : IsTrans PboInfo infoLe := ⟨fun _ _ _ hab hbc => le_trans hab hbc⟩

/-- Member qualification for the filehash, written from the claim's
words: positive data size, and the lowercased filename suffix is not in
the version-2 exclusion list (for version 2) or is in the version-3
inclusion list (for version 3). -/
def specFileQual (v : Nat) (i : PboInfo) : Bool :=
  decide (0 < i.data_size) &&
    (if v = 2 then
      !(v2Excluded.any (fun suf => suf.isSuffixOf (lowerB i.filename)))
    else v3Included.any (fun suf => suf.isSuffixOf (lowerB i.filename)))

/-! A small concrete archive used by the witnesses: a leading `Vers`
record, a `prefix` extension with value `my`, members `a.sqf` (2 bytes)
and `b.paa` (3 bytes) in lexicographic order, and a correct trailer. -/

/-- The bytes of the member name `a.sqf`. -/
def sampleName1 : List Nat := [97, 46, 115, 113, 102]

/-- The bytes of the member name `b.paa`. -/
def sampleName2 : List Nat := [98, 46, 112, 97, 97]

/-- Index record of `a.sqf`: 2 data bytes at offset 105. -/
def infoA : PboInfo := ⟨sampleName1, 0, 0, 0, 0, 2, 105⟩

/-- Index record of `b.paa`: 3 data bytes at offset 107. -/
def infoB : PboInfo := ⟨sampleName2, 0, 0, 0, 0, 3, 107⟩

/-- The serialized header and index of the sample archive (105 bytes). -/
def sampleIndex : List Nat :=
  [0] ++ le32 0x56657273 ++ le32 0 ++ le32 0 ++ le32 0 ++ le32 0 ++
  (keyPfx ++ [0] ++ [109, 121] ++ [0]) ++ [0] ++
  (sampleName1 ++ [0] ++ le32 0 ++ le32 0 ++ le32 0 ++ le32 0 ++ le32 2) ++
  (sampleName2 ++ [0] ++ le32 0 ++ le32 0 ++ le32 0 ++ le32 0 ++ le32 3) ++
  [0] ++ List.replicate 20 0

/-- Header, index and payloads of the sample archive (110 bytes). -/
def sampleBody : List Nat := sampleIndex ++ [10, 20] ++ [1, 2, 3]

/-- The complete sample archive: body, NUL, correct SHA-1 trailer. -/
def sampleF : List Nat := sampleBody ++ [0] ++ sha1 sampleBody

/-- The parsed form of `sampleF`. -/
def samplePbo : PboFile :=
  ⟨[], (0x56657273, 0, 0, 0, 0), [(keyPfx, [109, 121])],
   [(sampleName1, infoA), (sampleName2, infoB)], sampleF⟩

/-- The flipped sample archive: byte 105 (the first payload byte of
`a.sqf`) changes from 10 to 11, one flipped bit; index, extension and
trailer bytes are identical to `sampleF`. -/
def sampleFX : List Nat := (sampleIndex ++ [11, 20] ++ [1, 2, 3]) ++ [0] ++
  sha1 sampleBody

/-- The flipped sample archive as a `PboFile`. -/
def samplePboX : PboFile :=
  ⟨[], (0x56657273, 0, 0, 0, 0), [(keyPfx, [109, 121])],
   [(sampleName1, infoA), (sampleName2, infoB)], sampleFX⟩

theorem foldl_mul_add (m : Nat) (l : List Nat) : ∀ a : Nat,
    l.foldl (fun x b => x * m + b) a =
      a * m ^ l.length + l.foldl (fun x b => x * m + b) 0 := by
  induction l with
  | nil => intro a; simp
  | cons y ys ih =>
    intro a
    rw [List.foldl_cons, ih (a * m + y), List.foldl_cons, ih (0 * m + y),
      List.length_cons, pow_succ]
    ring

theorem beVal_cons (x : Nat) (l : List Nat) :
    beVal (x :: l) = x * 256 ^ l.length + beVal l := by
  show (x :: l).foldl (fun a b => a * 256 + b) 0 = _
  rw [List.foldl_cons, foldl_mul_add 256 l (0 * 256 + x)]
  simp [beVal]

theorem beVal_append (a b : List Nat) :
    beVal (a ++ b) = beVal a * 256 ^ b.length + beVal b := by
  induction a with
  | nil => simp [beVal]
  | cons x xs ih =>
    simp only [List.cons_append, beVal_cons, ih, List.length_append]
    ring

theorem beVal_lt (l : List Nat) (h : ∀ b ∈ l, b < 256) :
    beVal l < 256 ^ l.length := by
  induction l with
  | nil => simp [beVal]
  | cons x xs ih =>
    have hx : x < 256 := h x (List.mem_cons_self x xs)
    have hxs := ih (fun b hb => h b (List.mem_cons_of_mem x hb))
    rw [beVal_cons]
    calc x * 256 ^ xs.length + beVal xs
        < x * 256 ^ xs.length + 256 ^ xs.length := by omega
      _ = (x + 1) * 256 ^ xs.length := by ring
      _ ≤ 256 * 256 ^ xs.length := by
          exact Nat.mul_le_mul_right _ (by omega)
      _ = 256 ^ (x :: xs).length := by
          rw [List.length_cons, pow_succ]
          ring

theorem beBytes_beVal (l : List Nat) (h : ∀ b ∈ l, b < 256) :
    beBytes (beVal l) l.length = l := by
  induction l using List.reverseRecOn with
  | nil => simp [beVal, beBytes]
  | append_singleton xs x ih =>
    have hx : x < 256 := h x (by simp)
    have hxs : ∀ b ∈ xs, b < 256 := fun b hb => h b (by simp [hb])
    have hv : beVal (xs ++ [x]) = beVal xs * 256 + x := by
      simp [beVal_append, beVal_cons, beVal]
    have hlen : (xs ++ [x]).length = xs.length + 1 := by simp
    rw [hlen, hv, beBytes]
    have hdiv : (beVal xs * 256 + x) / 256 = beVal xs := by
      omega
    have hmod : (beVal xs * 256 + x) % 256 = x := by
      omega
    rw [hdiv, hmod, ih hxs]

theorem foldl_mul_add_hex (l : List Char) : ∀ a : Nat,
    l.foldl (fun x c => x * 16 + hexVal c) a =
      a * 16 ^ l.length + l.foldl (fun x c => x * 16 + hexVal c) 0 := by
  induction l with
  | nil => intro a; simp
  | cons y ys ih =>
    intro a
    rw [List.foldl_cons, ih (a * 16 + hexVal y), List.foldl_cons,
      ih (0 * 16 + hexVal y), List.length_cons, pow_succ]
    ring

theorem hexFold_cons (c : Char) (s : List Char) :
    hexFold (c :: s) = hexVal c * 16 ^ s.length + hexFold s := by
  show (c :: s).foldl (fun a c => a * 16 + hexVal c) 0 = _
  rw [List.foldl_cons, foldl_mul_add_hex s (0 * 16 + hexVal c)]
  simp [hexFold]

theorem hexFold_append (a b : List Char) :
    hexFold (a ++ b) = hexFold a * 16 ^ b.length + hexFold b := by
  induction a with
  | nil => simp [hexFold]
  | cons x xs ih =>
    simp only [List.cons_append, hexFold_cons, ih, List.length_append]
    ring

theorem hexVal_hexDig : ∀ n < 16, hexVal (hexDig n) = n := by decide

theorem hexFold_toHexByte (b : Nat) (hb : b < 256) :
    hexFold (toHexByte b) = b := by
  have h1 : b / 16 < 16 := by omega
  have h2 : b % 16 < 16 := by omega
  simp [toHexByte, hexFold_cons, hexFold, hexVal_hexDig _ h1, hexVal_hexDig _ h2]
  omega

theorem toHex_length (l : List Nat) : (toHex l).length = 2 * l.length := by
  induction l with
  | nil => simp [toHex]
  | cons x xs ih =>
    simp only [toHex, List.map_cons, List.flatten_cons] at *
    simp [toHexByte, ih]
    omega

theorem toHex_append (a b : List Nat) : toHex (a ++ b) = toHex a ++ toHex b := by
  simp [toHex]

theorem hexFold_toHex (l : List Nat) (h : ∀ b ∈ l, b < 256) :
    hexFold (toHex l) = beVal l := by
  induction l with
  | nil => simp [toHex, hexFold, beVal]
  | cons x xs ih =>
    have hx : x < 256 := h x (List.mem_cons_self x xs)
    have hxs := ih (fun b hb => h b (List.mem_cons_of_mem x hb))
    have : toHex (x :: xs) = toHexByte x ++ toHex xs := by simp [toHex]
    rw [this, hexFold_append, hexFold_toHexByte x hx, hxs, toHex_length,
      beVal_cons]
    rw [pow_mul]
    norm_num

theorem toHex_replicate_255 (m : Nat) :
    toHex (List.replicate m 255) = (List.replicate m (['f','f'] : List Char)).flatten := by
  induction m with
  | zero => simp [toHex]
  | succ n ih =>
    simp only [List.replicate_succ, toHex, List.map_cons, List.flatten_cons] at *
    rw [ih]
    rfl

theorem bytes_lt_pad_list (digest : List Nat) (hb : ∀ b ∈ digest, b < 256)
    (m : Nat) :
    ∀ b ∈ ([0, 1] ++ List.replicate m 255 ++ [0] ++ digestInfoBytes ++
      digest), b < 256 := by
  have hdi : ∀ x ∈ digestInfoBytes, x < 256 := by decide
  intro b hbm
  rcases List.mem_append.mp hbm with h | h
  · rcases List.mem_append.mp h with h | h
    · rcases List.mem_append.mp h with h | h
      · rcases List.mem_append.mp h with h | h
        · rcases List.mem_cons.mp h with h | h
          · omega
          · rcases List.mem_singleton.mp h with h
            omega
        · have := List.eq_of_mem_replicate h
          omega
      · rcases List.mem_singleton.mp h with h
        omega
    · exact hdi b h
  · exact hb b h

/-- The layout lemma: for any 20-byte digest and any width of at least 38,
`padding` returns the integer whose big-endian `tlen`-byte encoding is
`00 01 FF*(tlen-38) 00 DigestInfo digest`. -/
theorem padding_eq_beVal (digest : List Nat) (hlen : digest.length = 20)
    (hb : ∀ b ∈ digest, b < 256) (k : Nat) (hk : 38 ≤ k) :
    padding (toHex digest) k =
      beVal ([0, 1] ++ List.replicate (k - 38) 255 ++ [0] ++ digestInfoBytes ++ digest) := by
  have hx : toHex ([0, 1] ++ List.replicate (k - 38) 255 ++ [0] ++
      digestInfoBytes ++ digest) =
      ['0','0','0','1'] ++ (List.replicate (k - 38) (['f','f'] : List Char)).flatten ++
      ['0','0'] ++ digestInfoHex ++ toHex digest := by
    rw [toHex_append, toHex_append, toHex_append, toHex_append,
      toHex_replicate_255]
    rfl
  have hval := hexFold_toHex _ (bytes_lt_pad_list digest hb (k - 38))
  rw [hx] at hval
  have hcnt : k - (toHex digest).length / 2 - 3 - 15 = k - 38 := by
    rw [toHex_length, hlen]
    omega
  have hred : ∀ rest : List Char, pyInt16 ('0' :: 'x' :: rest) = hexFold rest :=
    fun _ => rfl
  unfold padding
  rw [hcnt]
  simp only [List.cons_append, List.nil_append] at hval ⊢
  rw [hred]
  exact hval

theorem length_padding_list (digest : List Nat) (hlen : digest.length = 20)
    (k : Nat) (hk : 38 ≤ k) :
    ([0, 1] ++ List.replicate (k - 38) 255 ++ [0] ++ digestInfoBytes ++
      digest).length = k := by
  simp [digestInfoBytes, hlen]
  omega

/-- C6: for every 20-byte digest (given as its 40-character lowercase hex
string, i.e. `toHex digest`) and every `k ≥ 64`, `padding` returns an
integer whose big-endian `k`-byte encoding is exactly `00 01`, then
`k - 38` bytes `FF`, then `00`, the 15-byte SHA-1 DigestInfo prefix and
the 20 digest bytes; the encoding has length `k` and starts `00 01`. -/
theorem C6_padding_layout (digest : List Nat) (hlen : digest.length = 20)
    (hb : ∀ b ∈ digest, b < 256) (k : Nat) (hk : 64 ≤ k) :
    beBytes (padding (toHex digest) k) k =
        [0, 1] ++ List.replicate (k - 38) 255 ++ [0] ++ digestInfoBytes ++ digest ∧
      ([0, 1] ++ List.replicate (k - 38) 255 ++ [0] ++ digestInfoBytes ++
        digest).length = k ∧
      ([0, 1] ++ List.replicate (k - 38) 255 ++ [0] ++ digestInfoBytes ++
        digest).take 2 = [0, 1] := by
  have hk38 : 38 ≤ k := by omega
  have hbytes := bytes_lt_pad_list digest hb (k - 38)
  have hlist := beBytes_beVal _ hbytes
  rw [length_padding_list digest hlen k hk38] at hlist
  refine ⟨?_, length_padding_list digest hlen k hk38, by simp⟩
  rw [padding_eq_beVal digest hlen hb k hk38]
  exact hlist

/-- C6 witness: the layout theorem applied at the all-zero digest and
`k = 64`. -/
theorem C6_padding_layout_witness :
    beBytes (padding (toHex (List.replicate 20 0)) 64) 64 =
      [0, 1] ++ List.replicate 26 255 ++ [0] ++ digestInfoBytes ++
        List.replicate 20 0 := by
  have h := C6_padding_layout (List.replicate 20 0) (by decide)
    (by intro b hb; simp [List.mem_replicate] at hb; omega) 64 (by decide)
  exact h.1

/-- C7 counterexample: at width `k = 32 < 64` the source `padding` does
not fail at all (there is no `ModulusTooSmall` error anywhere in the
code); `'ff' * negative` is simply the empty string and the call returns
an ordinary integer, computed here explicitly. -/
theorem C7_padding_small_k_returns :
    32 < 64 ∧
      padding (toHex (List.replicate 20 0)) 32 =
        0x01003021300906052b0e03021a05000414 * 256 ^ 20 := by
  constructor
  · decide
  · decide

/-- C7 amended: `padding` never raises; for every 20-byte digest and
every width `k ≥ 38` (not `k ≥ 64` as the spec demands) it returns the
normally padded integer, and for `k < 38` it still returns a value (the
`FF` run is empty). -/
theorem C7_padding_total_layout (digest : List Nat) (hlen : digest.length = 20)
    (hb : ∀ b ∈ digest, b < 256) (k : Nat) (hk : 38 ≤ k) :
    beBytes (padding (toHex digest) k) k =
      [0, 1] ++ List.replicate (k - 38) 255 ++ [0] ++ digestInfoBytes ++ digest := by
  have hbytes := bytes_lt_pad_list digest hb (k - 38)
  have hlist := beBytes_beVal _ hbytes
  rw [length_padding_list digest hlen k hk] at hlist
  rw [padding_eq_beVal digest hlen hb k hk]
  exact hlist

/-- C7 amended witness: the total-layout theorem applied at `k = 40`,
inside the range `38 ≤ k < 64` that the spec claims is rejected. -/
theorem C7_padding_total_layout_witness :
    beBytes (padding (toHex (List.replicate 20 0)) 40) 40 =
      [0, 1] ++ List.replicate 2 255 ++ [0] ++ digestInfoBytes ++
        List.replicate 20 0 := by
  exact C7_padding_total_layout (List.replicate 20 0) (by decide)
    (by intro b hb; simp [List.mem_replicate] at hb; omega) 40 (by decide)

theorem sha1_length (msg : List Nat) : (sha1 msg).length = 20 := by
  unfold sha1
  simp [be4]

theorem sha1_lt (msg : List Nat) : ∀ b ∈ sha1 msg, b < 256 := by
  unfold sha1
  intro b hb
  simp only [be4, List.mem_append, List.mem_cons, List.mem_singleton,
    List.not_mem_nil, or_false] at hb
  rcases hb with ((((h | h | h | h) | h | h | h | h) | h | h | h | h) |
    h | h | h | h) | h | h | h | h <;> subst h <;> omega

theorem pow_congr_prime (p m k : Nat) (hp : p.Prime) (hk : 1 ≤ k)
    (hd : (p - 1) ∣ k - 1) : m ^ k ≡ m [MOD p] := by
  by_cases hpm : p ∣ m
  · have h1 : m ≡ 0 [MOD p] := (Nat.modEq_zero_iff_dvd).mpr hpm
    have h2 : m ^ k ≡ 0 [MOD p] :=
      (Nat.modEq_zero_iff_dvd).mpr (dvd_pow hpm (by omega))
    exact h2.trans h1.symm
  · haveI : Fact p.Prime := ⟨hp⟩
    obtain ⟨t, ht⟩ := hd
    have hk1 : k = 1 + (p - 1) * t := by
      have hp2 := hp.two_le
      omega
    have hz : (m : ZMod p) ^ (p - 1) = 1 := by
      apply ZMod.pow_card_sub_one_eq_one
      rw [Ne, ZMod.natCast_zmod_eq_zero_iff_dvd]
      exact hpm
    have hcast : ((m ^ k : ℕ) : ZMod p) = ((m : ℕ) : ZMod p) := by
      push_cast
      rw [hk1, pow_add, pow_one, pow_mul, hz, one_pow, mul_one]
    exact (ZMod.natCast_eq_natCast_iff _ _ _).mp hcast

theorem rsa_roundtrip (p q e d m : Nat) (hp : p.Prime) (hq : q.Prime)
    (hpq : p ≠ q) (hl : e * d ≡ 1 [MOD Nat.lcm (p - 1) (q - 1)])
    (hm : m < p * q) : (m ^ d % (p * q)) ^ e % (p * q) = m := by
  set L := Nat.lcm (p - 1) (q - 1) with hL
  have hp1 : 1 ≤ p - 1 := by have := hp.two_le; omega
  have hq1 : 1 ≤ q - 1 := by have := hq.two_le; omega
  have hLpos : 0 < L := Nat.lcm_pos hp1 hq1
  have hL2 : 2 ≤ L := by
    rcases Nat.lt_or_ge L 2 with h | h
    · exfalso
      have hL1 : L = 1 := by omega
      have hdp : (p - 1) ∣ L := Nat.dvd_lcm_left _ _
      have hdq : (q - 1) ∣ L := Nat.dvd_lcm_right _ _
      rw [hL1] at hdp hdq
      have hpe : p - 1 = 1 := Nat.dvd_one.mp hdp
      have hqe : q - 1 = 1 := Nat.dvd_one.mp hdq
      have := hp.two_le
      have := hq.two_le
      omega
    · exact h
  have hed1 : 1 ≤ e * d := by
    by_contra h
    have hed0 : e * d = 0 := by omega
    have := hl
    rw [hed0] at this
    have h01 : 0 % L = 1 % L := this
    rw [Nat.zero_mod, Nat.mod_eq_of_lt (by omega)] at h01
    omega
  have hdvd : L ∣ e * d - 1 := (Nat.modEq_iff_dvd' hed1).mp hl.symm
  have hmp : m ^ (e * d) ≡ m [MOD p] :=
    pow_congr_prime p m (e * d) hp hed1
      (dvd_trans (Nat.dvd_lcm_left _ _) hdvd)
  have hmq : m ^ (e * d) ≡ m [MOD q] :=
    pow_congr_prime q m (e * d) hq hed1
      (dvd_trans (Nat.dvd_lcm_right _ _) hdvd)
  have hco : Nat.Coprime p q := (Nat.coprime_primes hp hq).mpr hpq
  have hmpq : m ^ (e * d) ≡ m [MOD p * q] :=
    (Nat.modEq_and_modEq_iff_modEq_mul hco).mp ⟨hmp, hmq⟩
  calc (m ^ d % (p * q)) ^ e % (p * q)
      = (m ^ d) ^ e % (p * q) := by rw [← Nat.pow_mod]
    _ = m ^ (e * d) % (p * q) := by rw [← pow_mul, Nat.mul_comm d e]
    _ = m % (p * q) := hmpq
    _ = m := Nat.mod_eq_of_lt hm

/-- C1: for an RSA key pair whose components satisfy the private-key
invariants (`p`, `q` distinct primes, `n = p * q`,
`e * d ≡ 1 mod lcm(p-1, q-1)`) and any 20-byte digest whose padded value
is below `n`, signing then verifying succeeds, and the signature value
lies in `[0, n)`. -/
theorem C1_rsa_sign_verify (p q e d n : Nat) (hp : p.Prime) (hq : q.Prime)
    (hpq : p ≠ q) (hn : n = p * q)
    (hl : e * d ≡ 1 [MOD Nat.lcm (p - 1) (q - 1)])
    (digest : List Nat) (hdig : digest.length = 20)
    (hdb : ∀ b ∈ digest, b < 256) (k : Nat)
    (hm : padding (toHex digest) k < n) :
    rsaVerify (padding (toHex digest) k)
        (rsaSign (padding (toHex digest) k) d n) e n = true ∧
      rsaSign (padding (toHex digest) k) d n < n := by
  subst hn
  constructor
  · unfold rsaVerify rsaSign
    rw [beq_iff_eq]
    exact (rsa_roundtrip p q e d _ hp hq hpq hl hm).symm
  · unfold rsaSign
    exact Nat.mod_lt _ (Nat.mul_pos hp.pos hq.pos)

/-- C1 witness: a concrete RSA key built from the Mersenne primes
`2^521 - 1` and `2^127 - 1` with `e = 65537`, applied to the all-zero
digest at width 38 (so the padded value fits below `n`). -/
theorem C1_rsa_sign_verify_witness :
    rsaVerify (padding (toHex (List.replicate 20 0)) 38)
        (rsaSign (padding (toHex (List.replicate 20 0)) 38)
          193900767558032071937636487021452117448910287312278971207800283425644781136078887330150457137153435273259066364624685827854923748501752122182388647400968388233585136878839649485385373845435689473
          (mersenne 521 * mersenne 127))
        65537 (mersenne 521 * mersenne 127) = true ∧
      rsaSign (padding (toHex (List.replicate 20 0)) 38)
          193900767558032071937636487021452117448910287312278971207800283425644781136078887330150457137153435273259066364624685827854923748501752122182388647400968388233585136878839649485385373845435689473
          (mersenne 521 * mersenne 127) <
        mersenne 521 * mersenne 127 := by
  apply C1_rsa_sign_verify (mersenne 521) (mersenne 127) 65537 _ _
    (lucas_lehmer_sufficiency 521 (by norm_num) (by norm_num))
    (lucas_lehmer_sufficiency 127 (by norm_num) (by norm_num))
    (by decide) rfl (by decide) (List.replicate 20 0) (by decide)
    (by intro b hb; rw [List.eq_of_mem_replicate hb]; omega) 38 (by decide)

theorem hash1Chunks_eq (fuel : Nat) : ∀ (c : List Nat) (e pos : Nat)
    (acc : List Nat), e ≤ c.length → pos ≤ e → e - pos < fuel →
    hash1Chunks fuel ⟨c, pos⟩ e acc = (acc ++ (c.drop pos).take (e - pos), ⟨c, e⟩) := by
  induction fuel with
  | zero => intro c e pos acc he hpos hfuel; omega
  | succ f ih =>
    intro c e pos acc he hpos hfuel
    have step : hash1Chunks (f + 1) ⟨c, pos⟩ e acc =
        if e - pos = 0 then (acc, ⟨c, pos⟩)
        else hash1Chunks f
          ⟨c, pos + ((c.drop pos).take (min 4096 (e - pos))).length⟩ e
          (acc ++ (c.drop pos).take (min 4096 (e - pos))) := rfl
    rw [step]
    by_cases h0 : e - pos = 0
    · have hpe : pos = e := by omega
      simp [h0, hpe]
    · have hm1 : 1 ≤ min 4096 (e - pos) := by omega
      set m := min 4096 (e - pos) with hm
      have hdlen : ((c.drop pos).take m).length = m := by
        rw [List.length_take, List.length_drop]
        omega
      rw [if_neg h0, hdlen]
      rw [ih c e (pos + m) (acc ++ (c.drop pos).take m) he (by omega) (by omega)]
      have hfst : acc ++ (c.drop pos).take m ++
          (c.drop (pos + m)).take (e - (pos + m)) =
          acc ++ (c.drop pos).take (e - pos) := by
        rw [List.append_assoc]
        congr 1
        have hdd : c.drop (pos + m) = (c.drop pos).drop m := by
          rw [List.drop_drop]
        rw [hdd, ← List.take_add]
        congr 1
        omega
      rw [hfst]

theorem hash1F_eq (h : Handle) (hlen : 21 ≤ h.content.length) :
    hash1F h = some (sha1 (h.content.take (h.content.length - 21)),
      ⟨h.content, h.pos⟩) := by
  unfold hash1F
  rw [if_neg (by omega)]
  dsimp only
  rw [hash1Chunks_eq (h.content.length - 21 + 1) h.content
    (h.content.length - 21) 0 [] (by omega) (by omega) (by omega)]
  simp

/-- C10: `hash1` reads and hashes the whole file up to the final 21
bytes, and restores the stream position it found: the handle it leaves
behind has the same `pos` it started with. -/
theorem C10_hash1_restores_position (h : Handle) (hlen : 21 ≤ h.content.length) :
    hash1F h = some (sha1 (h.content.take (h.content.length - 21)),
      ⟨h.content, h.pos⟩) :=
  hash1F_eq h hlen

/-- C10 witness: a 30-byte file read from position 5. -/
theorem C10_hash1_restores_position_witness :
    hash1F ⟨List.replicate 30 7, 5⟩ =
      some (sha1 ((List.replicate 30 7).take ((List.replicate 30 7).length - 21)),
        ⟨List.replicate 30 7, 5⟩) :=
  C10_hash1_restores_position ⟨List.replicate 30 7, 5⟩ (by decide)

theorem asciizSteps_stuck (fuel : Nat) : ∀ (h : Handle) (acc : List Nat),
    h.content.length ≤ h.pos → asciizSteps fuel h acc = none := by
  induction fuel with
  | zero => intro h acc _; rfl
  | succ f ih =>
    intro h acc hend
    rw [asciizSteps]
    have hdata : (h.content.drop h.pos).take 1 = [] := by
      rw [List.drop_eq_nil_of_le hend]
      rfl
    simp only [readH, hdata]
    rw [if_neg (by simp)]
    exact ih _ _ (by simp [hdata]; omega)

/-- C9 (code bug): on a truncated stream, `from_file` does not fail fast
with a `MalformedPBO` error (no such error exists in the source).  On
the empty stream the very first `unpack_asciiz` loops forever:
`file.read(1)` returns the empty string at end of file, which never
equals the NUL terminator, so no number of loop steps makes
`asciizSteps` return, and the `Option`-level parser can only signal the
missing terminator as `none`. -/
theorem C9_truncated_from_file_hangs :
    (∀ fuel : Nat, asciizSteps fuel ⟨[], 0⟩ [] = none) ∧
      PboFile.from_file [] = none := by
  constructor
  · intro fuel
    exact asciizSteps_stuck fuel ⟨[], 0⟩ [] (by simp)
  · rfl

theorem namehash_fold (l : List PboInfo) (acc : List Nat) :
    l.foldl (fun acc i => if i.check_name_hash then acc ++ lowerB i.filename
        else acc) acc =
      acc ++ ((l.filter (fun i => i.check_name_hash)).map
        (fun i => lowerB i.filename)).flatten := by
  induction l generalizing acc with
  | nil => simp
  | cons x xs ih =>
    by_cases hx : x.check_name_hash
    · rw [List.foldl_cons, if_pos hx, ih, List.filter_cons_of_pos hx]
      simp [List.append_assoc]
    · rw [List.foldl_cons, if_neg hx, ih,
        List.filter_cons_of_neg (by simpa using hx)]

/-- C4: the namehash is the SHA-1 of the concatenated lowercased names
of exactly the members with positive data size, taken in ascending order
of lowercased filename (any list so ordered gives the same digest), and
it is the SHA-1 of the empty string when there are no members. -/
theorem C4_namehash_sorted_names (p : PboFile) :
    (∀ L : List PboInfo,
        L.Perm (p.infolist.filter (fun i => i.check_name_hash)) →
        L.Sorted infoLe →
        p._namehash = sha1 ((L.map (fun i => lowerB i.filename)).flatten)) ∧
      (p.filedict = [] → p._namehash = sha1 []) := by
  constructor
  · intro L hperm hsort
    unfold PboFile._namehash
    rw [namehash_fold]
    rw [List.nil_append]
    have hmapeq :
        ((List.insertionSort infoLe p.infolist).filter
          (fun i => i.check_name_hash)).map (fun i => lowerB i.filename) =
        L.map (fun i => lowerB i.filename) := by
      apply List.eq_of_perm_of_sorted
        (r := fun a b : List Nat => a ≤ b)
      · exact List.Perm.map _
          (((List.perm_insertionSort infoLe p.infolist).filter _).trans
            hperm.symm)
      · have hs := List.sorted_insertionSort infoLe p.infolist
        have hsf := hs.filter (fun i => i.check_name_hash)
        exact List.pairwise_map.mpr hsf
      · exact List.pairwise_map.mpr hsort
    rw [hmapeq]
  · intro h
    unfold PboFile._namehash PboFile.infolist
    rw [h]
    rfl

theorem check_file_hash_eq_spec (v : Nat) (hv : v = 2 ∨ v = 3)
    (i : PboInfo) : i.check_file_hash v = specFileQual v i := by
  rcases hv with h | h <;> subst h <;>
    simp [PboInfo.check_file_hash, specFileQual, endsWithAny,
      PboInfo.get_data_size]

theorem memberChunks_eq (fuel : Nat) : ∀ (c : List Nat) (dOff dSize pos : Nat)
    (acc : List Nat), dOff + dSize ≤ c.length → dOff ≤ pos →
    pos ≤ dOff + dSize → dOff + dSize - pos < fuel →
    memberChunks fuel c dOff dSize pos acc =
      acc ++ (c.drop pos).take (dOff + dSize - pos) := by
  induction fuel with
  | zero => intro c dOff dSize pos acc hb hlo hhi hfuel; omega
  | succ f ih =>
    intro c dOff dSize pos acc hb hlo hhi hfuel
    have step : memberChunks (f + 1) c dOff dSize pos acc =
        if dSize - (pos - dOff) = 0 then acc
        else memberChunks f c dOff dSize
          (pos + ((c.drop pos).take
            (min (min 4096 (dSize - (pos - dOff))) (dOff + dSize - pos))).length)
          (acc ++ (c.drop pos).take
            (min (min 4096 (dSize - (pos - dOff))) (dOff + dSize - pos))) := rfl
    rw [step]
    have hrlen : dSize - (pos - dOff) = dOff + dSize - pos := by omega
    rw [hrlen]
    have hmm : min (min 4096 (dOff + dSize - pos)) (dOff + dSize - pos) =
        min 4096 (dOff + dSize - pos) := by
      rw [min_assoc, min_self]
    rw [hmm]
    by_cases h0 : dOff + dSize - pos = 0
    · rw [if_pos h0, h0]
      simp
    · rw [if_neg h0]
      have hm1 : 1 ≤ min 4096 (dOff + dSize - pos) := by omega
      set m := min 4096 (dOff + dSize - pos) with hm
      have hdlen : ((c.drop pos).take m).length = m := by
        rw [List.length_take, List.length_drop]
        omega
      rw [hdlen]
      rw [ih c dOff dSize (pos + m) (acc ++ (c.drop pos).take m) hb (by omega)
        (by omega) (by omega)]
      rw [List.append_assoc]
      congr 1
      have hdd : c.drop (pos + m) = (c.drop pos).drop m := by
        rw [List.drop_drop]
      rw [hdd, ← List.take_add]
      congr 1
      omega

theorem filehash_fold (v : Nat) (f : PboInfo → List Nat) (l : List PboInfo) :
    ∀ (b0 : Bool) (acc : List Nat),
    l.foldl (fun (st : Bool × List Nat) i =>
        if i.check_file_hash v then (false, st.2 ++ f i) else st) (b0, acc) =
      (b0 && l.all (fun i => ! i.check_file_hash v),
       acc ++ ((l.filter (fun i => i.check_file_hash v)).map f).flatten) := by
  induction l with
  | nil => intro b0 acc; simp
  | cons x xs ih =>
    intro b0 acc
    by_cases hx : x.check_file_hash v
    · rw [List.foldl_cons, if_pos hx, ih]
      simp [hx, List.filter_cons, List.append_assoc]
    · rw [List.foldl_cons, if_neg hx, ih]
      simp [hx, List.filter_cons]

/-- C3: for version 2 or 3, the filehash is the SHA-1 of the
concatenated payloads of exactly the members selected by the versioned
suffix rule, visited in stored order; when no member qualifies it is the
SHA-1 of `b'nothing'` (version 2) or `b'gnihton'` (version 3). -/
theorem C3_filehash_selection (p : PboFile) (v : Nat) (hv : v = 2 ∨ v = 3)
    (hbounds : ∀ i ∈ p.infolist, i.data_offset + i.data_size ≤
      p.content.length) :
    p._filehash v = some (sha1 (
      if p.infolist.filter (fun i => specFileQual v i) = [] then
        (if v = 2 then bNothing else bGnihton)
      else ((p.infolist.filter (fun i => specFileQual v i)).map
        (fun i => (p.content.drop i.data_offset).take i.data_size)).flatten)) := by
  unfold PboFile._filehash
  rw [if_pos hv]
  have hfold := filehash_fold v (fun i => memberChunks (i.data_size + 1)
    p.content i.data_offset i.data_size i.data_offset []) p.infolist true []
  dsimp only
  rw [hfold]
  have hfilter : p.infolist.filter (fun i => i.check_file_hash v) =
      p.infolist.filter (fun i => specFileQual v i) := by
    apply List.filter_congr
    intro i _
    rw [check_file_hash_eq_spec v hv i]
  have hmap : (p.infolist.filter (fun i => specFileQual v i)).map
      (fun i => memberChunks (i.data_size + 1) p.content i.data_offset
        i.data_size i.data_offset []) =
      (p.infolist.filter (fun i => specFileQual v i)).map
        (fun i => (p.content.drop i.data_offset).take i.data_size) := by
    apply List.map_congr_left
    intro i hi
    have hmem : i ∈ p.infolist := (List.mem_filter.mp hi).1
    have hb := hbounds i hmem
    rw [memberChunks_eq (i.data_size + 1) p.content i.data_offset i.data_size
      i.data_offset [] hb (le_refl _) (by omega) (by omega)]
    rw [List.nil_append]
    congr 1
    omega
  rw [hfilter, hmap]
  by_cases hempty : p.infolist.filter (fun i => specFileQual v i) = []
  · have hall : p.infolist.all (fun i => ! i.check_file_hash v) = true := by
      rw [List.all_eq_true]
      intro i hi
      have := List.filter_eq_nil_iff.mp hempty i hi
      rw [check_file_hash_eq_spec v hv i]
      simpa using this
    rw [hempty, hall]
    simp
  · have hnall : p.infolist.all (fun i => ! i.check_file_hash v) = false := by
      rcases List.exists_cons_of_ne_nil hempty with ⟨i, rest, hcons⟩
      have hi : i ∈ p.infolist.filter (fun i => specFileQual v i) := by
        rw [hcons]; exact List.mem_cons_self _ _
      have hmem := (List.mem_filter.mp hi).1
      have hqual := (List.mem_filter.mp hi).2
      rw [List.all_eq_false]
      refine ⟨i, hmem, ?_⟩
      rw [check_file_hash_eq_spec v hv i]
      simpa using hqual
    rw [hnall, if_neg hempty]
    simp

theorem hash_some (p : PboFile) (fpPos v : Nat) (h21 : 21 ≤ p.content.length)
    (hv : v = 2 ∨ v = 3) :
    ∃ fh, p._filehash v = some fh ∧
      p.hash fpPos v = some (sha1 (p.content.take (p.content.length - 21)),
        sha1 (sha1 (p.content.take (p.content.length - 21)) ++ p._namehash ++
          pfxInject p),
        sha1 (fh ++ p._namehash ++ pfxInject p)) := by
  have hfh : ∃ fh, p._filehash v = some fh := by
    unfold PboFile._filehash
    rw [if_pos hv]
    exact ⟨_, rfl⟩
  rcases hfh with ⟨fh, hfh⟩
  refine ⟨fh, hfh, ?_⟩
  unfold PboFile.hash
  rw [hash1F_eq ⟨p.content, fpPos⟩ h21]
  dsimp only
  rw [hfh]

/-- C5: hash2 is the SHA-1 of hash1's digest, then the namehash digest,
then — exactly when the header extension has the key `b'prefix'` — that
value followed by one literal backslash byte; hash3 is the same with the
filehash digest in place of hash1's. -/
theorem C5_hash2_hash3_composition (p : PboFile) (fpPos v : Nat)
    (h21 : 21 ≤ p.content.length) (hv : v = 2 ∨ v = 3) :
    p.hash fpPos v = (p._filehash v).map (fun fh =>
        (sha1 (p.content.take (p.content.length - 21)),
         sha1 (sha1 (p.content.take (p.content.length - 21)) ++ p._namehash ++
           (match p.header_extension.lookup keyPfx with
            | some pv => pv ++ [92]
            | none => [])),
         sha1 (fh ++ p._namehash ++
           (match p.header_extension.lookup keyPfx with
            | some pv => pv ++ [92]
            | none => [])))) ∧
      (p._filehash v).isSome = true := by
  have hfh : ∃ fh, p._filehash v = some fh := by
    unfold PboFile._filehash
    rw [if_pos hv]
    exact ⟨_, rfl⟩
  rcases hfh with ⟨fh, hfh⟩
  constructor
  · unfold PboFile.hash
    rw [hash1F_eq ⟨p.content, fpPos⟩ h21]
    dsimp only
    rw [hfh]
    rfl
  · rw [hfh]
    rfl

theorem unpack_asciiz_eq (s : List Nat) : ∀ (a r : List Nat),
    unpack_asciiz s = some (a, r) → s = a ++ 0 :: r := by
  induction s with
  | nil => intro a r h; exact absurd h (by simp [unpack_asciiz])
  | cons b rest ih =>
    intro a r h
    unfold unpack_asciiz at h
    by_cases hb : b = 0
    · rw [if_pos hb] at h
      simp only [Option.some.injEq, Prod.mk.injEq] at h
      obtain ⟨ha, hr⟩ := h
      subst ha
      subst hr
      simp [hb]
    · rw [if_neg hb] at h
      cases hrec : unpack_asciiz rest with
      | none => rw [hrec] at h; exact absurd h (by simp)
      | some pr =>
        obtain ⟨a1, r1⟩ := pr
        rw [hrec] at h
        simp only [Option.map_some', Option.some.injEq, Prod.mk.injEq] at h
        obtain ⟨ha, hr⟩ := h
        subst ha
        subst hr
        have e := ih a1 r1 hrec
        simp [e]

theorem readN_eq (s : List Nat) (n : Nat) (a r : List Nat)
    (h : readN s n = some (a, r)) : s = a ++ r ∧ a.length = n := by
  unfold readN at h
  by_cases hn : n ≤ s.length
  · rw [if_pos hn] at h
    simp only [Option.some.injEq, Prod.mk.injEq] at h
    obtain ⟨ha, hr⟩ := h
    subst ha
    subst hr
    exact ⟨(List.take_append_drop n s).symm, by simp; omega⟩
  · rw [if_neg hn] at h
    exact absurd h (by simp)

theorem parseExtPairs_eq (fuel : Nat) : ∀ (s : List Nat)
    (ext : List (List Nat × List Nat)) (r : List Nat),
    parseExtPairs fuel s = some (ext, r) → s = extBytes ext ++ 0 :: r := by
  induction fuel with
  | zero => intro s ext r h; exact absurd h (by simp [parseExtPairs])
  | succ f ih =>
    intro s ext r h
    unfold parseExtPairs at h
    cases h1 : unpack_asciiz s with
    | none => rw [h1] at h; exact absurd h (by simp)
    | some kr =>
      obtain ⟨k, s1⟩ := kr
      rw [h1] at h
      dsimp only at h
      by_cases hk : k = []
      · rw [if_pos hk] at h
        simp only [Option.some.injEq, Prod.mk.injEq] at h
        obtain ⟨hext, hr⟩ := h
        subst hext
        subst hr
        have := unpack_asciiz_eq s k s1 h1
        rw [hk] at this
        simpa [extBytes] using this
      · rw [if_neg hk] at h
        cases h2 : unpack_asciiz s1 with
        | none => rw [h2] at h; exact absurd h (by simp)
        | some vr =>
          obtain ⟨v, s2⟩ := vr
          rw [h2] at h
          dsimp only at h
          cases h3 : parseExtPairs f s2 with
          | none => rw [h3] at h; exact absurd h (by simp)
          | some pr =>
            obtain ⟨ps, s3⟩ := pr
            rw [h3] at h
            dsimp only at h
            simp only [Option.some.injEq, Prod.mk.injEq] at h
            obtain ⟨hext, hr⟩ := h
            subst hext
            subst hr
            have e1 := unpack_asciiz_eq s k s1 h1
            have e2 := unpack_asciiz_eq s1 v s2 h2
            have e3 := ih s2 ps s3 h3
            rw [e1, e2, e3]
            simp [extBytes, List.append_assoc]

theorem le32_fromLE32 (b : List Nat) (h4 : b.length = 4)
    (hlt : ∀ x ∈ b, x < 256) : le32 (fromLE32 b) = b := by
  rcases b with _ | ⟨x0, _ | ⟨x1, _ | ⟨x2, _ | ⟨x3, tail⟩⟩⟩⟩ <;>
    simp only [List.length_nil, List.length_cons] at h4 <;> try omega
  have htail : tail = [] := by
    cases tail
    · rfl
    · simp at h4
  subst htail
  have h0 : x0 < 256 := hlt x0 (by simp)
  have h1 : x1 < 256 := hlt x1 (by simp)
  have h2 : x2 < 256 := hlt x2 (by simp)
  have h3 : x3 < 256 := hlt x3 (by simp)
  simp only [fromLE32, List.foldr_cons, List.foldr_nil, le32]
  simp only [List.cons.injEq, and_true]
  refine ⟨by omega, by omega, by omega, by omega⟩

theorem list_split5 (b : List Nat) (h20 : b.length = 20) :
    b = b.take 4 ++ ((b.drop 4).take 4 ++ ((b.drop 8).take 4 ++
      ((b.drop 12).take 4 ++ (b.drop 16)))) := by
  have h4 : (b.drop 4).drop 4 = b.drop 8 := by
    rw [List.drop_drop]
  have h8 : (b.drop 8).drop 4 = b.drop 12 := by
    rw [List.drop_drop]
  have h12 : (b.drop 12).drop 4 = b.drop 16 := by
    rw [List.drop_drop]
  conv_lhs => rw [← List.take_append_drop 4 b]
  congr 1
  conv_lhs => rw [← List.take_append_drop 4 (b.drop 4)]
  rw [h4]
  congr 1
  conv_lhs => rw [← List.take_append_drop 4 (b.drop 8)]
  rw [h8]
  congr 1
  conv_lhs => rw [← List.take_append_drop 4 (b.drop 12)]
  rw [h12]

theorem pack5_parse5 (b : List Nat) (h20 : b.length = 20)
    (hlt : ∀ x ∈ b, x < 256) :
    le32 (parse5 b).1 ++ (le32 (parse5 b).2.1 ++ (le32 (parse5 b).2.2.1 ++
      (le32 (parse5 b).2.2.2.1 ++ le32 (parse5 b).2.2.2.2))) = b := by
  have hsub : ∀ (k : Nat), ∀ x ∈ (b.drop k).take 4, x < 256 := by
    intro k x hx
    exact hlt x (List.mem_of_mem_drop (List.mem_of_mem_take hx))
  have hlast : (b.drop 16).take 4 = b.drop 16 := by
    apply List.take_of_length_le
    rw [List.length_drop]
    omega
  have l1 := le32_fromLE32 (b.take 4) (by rw [List.length_take]; omega)
    (fun x hx => hlt x (List.mem_of_mem_take hx))
  have l2 := le32_fromLE32 ((b.drop 4).take 4)
    (by rw [List.length_take, List.length_drop]; omega) (hsub 4)
  have l3 := le32_fromLE32 ((b.drop 8).take 4)
    (by rw [List.length_take, List.length_drop]; omega) (hsub 8)
  have l4 := le32_fromLE32 ((b.drop 12).take 4)
    (by rw [List.length_take, List.length_drop]; omega) (hsub 12)
  have l5 := le32_fromLE32 ((b.drop 16).take 4)
    (by rw [hlast, List.length_drop]; omega) (hsub 16)
  unfold parse5
  dsimp only
  rw [l1, l2, l3, l4, l5, hlast]
  exact (list_split5 b h20).symm

theorem parseEntries_eq (fuel : Nat) : ∀ (s : List Nat)
    (ents : List PboInfo) (r : List Nat), (∀ x ∈ s, x < 256) →
    parseEntries fuel s = some (ents, r) →
    s = (ents.map entryBytes).flatten ++ 0 :: r := by
  induction fuel with
  | zero => intro s ents r _ h; exact absurd h (by simp [parseEntries])
  | succ f ih =>
    intro s ents r hlt h
    unfold parseEntries at h
    cases h1 : unpack_asciiz s with
    | none => rw [h1] at h; exact absurd h (by simp)
    | some nr =>
      obtain ⟨nm, s1⟩ := nr
      rw [h1] at h
      dsimp only at h
      by_cases hn : nm = []
      · rw [if_pos hn] at h
        simp only [Option.some.injEq, Prod.mk.injEq] at h
        obtain ⟨hents, hr⟩ := h
        subst hents
        subst hr
        have := unpack_asciiz_eq s nm s1 h1
        rw [hn] at this
        simpa using this
      · rw [if_neg hn] at h
        cases h2 : readN s1 20 with
        | none => rw [h2] at h; exact absurd h (by simp)
        | some rr =>
          obtain ⟨r20, s2⟩ := rr
          rw [h2] at h
          dsimp only at h
          cases h3 : parseEntries f s2 with
          | none => rw [h3] at h; exact absurd h (by simp)
          | some pr =>
            obtain ⟨is, s3⟩ := pr
            rw [h3] at h
            dsimp only at h
            simp only [Option.some.injEq, Prod.mk.injEq] at h
            obtain ⟨hents, hr⟩ := h
            subst hr
            have e1 := unpack_asciiz_eq s nm s1 h1
            obtain ⟨e2, e2len⟩ := readN_eq s1 20 r20 s2 h2
            have hs1lt : ∀ x ∈ s1, x < 256 := by
              intro x hx
              apply hlt
              rw [e1]
              simp [hx]
            have hr20lt : ∀ x ∈ r20, x < 256 := by
              intro x hx
              apply hs1lt
              rw [e2]
              simp [hx]
            have hs2lt : ∀ x ∈ s2, x < 256 := by
              intro x hx
              apply hs1lt
              rw [e2]
              simp [hx]
            have e3 := ih s2 is s3 hs2lt h3
            subst hents
            have hpack : entryBytes ⟨nm, (parse5 r20).1, (parse5 r20).2.1,
                (parse5 r20).2.2.1, (parse5 r20).2.2.2.1,
                (parse5 r20).2.2.2.2, 0⟩ = nm ++ 0 :: r20 := by
              have hp5 := pack5_parse5 r20 e2len hr20lt
              simp only [entryBytes, PboInfo.get_timestamp,
                PboInfo.get_data_size]
              rw [List.append_assoc, List.append_assoc, List.append_assoc,
                List.append_assoc, List.append_assoc, hp5]
              simp
            rw [e1, e2, e3]
            simp only [List.map_cons, List.flatten_cons, hpack]
            simp [List.append_assoc]

theorem assignOffsets_map_entryBytes (ents : List PboInfo) : ∀ (o : Nat),
    (assignOffsets o ents).map entryBytes = ents.map entryBytes := by
  induction ents with
  | nil => intro o; rfl
  | cons i rest ih =>
    intro o
    simp only [assignOffsets, List.map_cons, ih]
    rfl

theorem assignOffsets_sizes (ents : List PboInfo) : ∀ (o : Nat),
    (assignOffsets o ents).map (fun i => i.data_size) =
      ents.map (fun i => i.data_size) := by
  induction ents with
  | nil => intro o; rfl
  | cons i rest ih =>
    intro o
    simp only [assignOffsets, List.map_cons, ih]

theorem exportChunks_eq (fuel : Nat) : ∀ (c : List Nat) (dOff dSize pos : Nat)
    (acc : List Nat), dOff + dSize ≤ c.length → dOff ≤ pos →
    pos ≤ dOff + dSize → dOff + dSize - pos < fuel →
    exportChunks fuel c dOff dSize pos acc =
      acc ++ (c.drop pos).take (dOff + dSize - pos) := by
  induction fuel with
  | zero => intro c dOff dSize pos acc hb hlo hhi hfuel; omega
  | succ f ih =>
    intro c dOff dSize pos acc hb hlo hhi hfuel
    have step : exportChunks (f + 1) c dOff dSize pos acc =
        if (c.drop pos).take (min 4096 (dOff + dSize - pos)) = [] then acc
        else exportChunks f c dOff dSize
          (pos + ((c.drop pos).take (min 4096 (dOff + dSize - pos))).length)
          (acc ++ (c.drop pos).take (min 4096 (dOff + dSize - pos))) := rfl
    rw [step]
    by_cases h0 : dOff + dSize - pos = 0
    · have : min 4096 (dOff + dSize - pos) = 0 := by omega
      rw [this]
      simp [h0]
    · have hm1 : 1 ≤ min 4096 (dOff + dSize - pos) := by omega
      set m := min 4096 (dOff + dSize - pos) with hm
      have hdlen : ((c.drop pos).take m).length = m := by
        rw [List.length_take, List.length_drop]
        omega
      have hne : (c.drop pos).take m ≠ [] := by
        intro hc
        rw [hc] at hdlen
        simp at hdlen
        omega
      rw [if_neg hne, hdlen]
      rw [ih c dOff dSize (pos + m) (acc ++ (c.drop pos).take m) hb (by omega)
        (by omega) (by omega)]
      rw [List.append_assoc]
      congr 1
      have hdd : c.drop (pos + m) = (c.drop pos).drop m := by
        rw [List.drop_drop]
      rw [hdd, ← List.take_add]
      congr 1
      omega

theorem payload_flatten (ents : List PboInfo) : ∀ (c : List Nat) (o : Nat),
    o + (ents.map (fun i => i.data_size)).sum ≤ c.length →
    ((assignOffsets o ents).map (fun i => exportChunks (i.data_size + 1) c
      i.data_offset i.data_size i.data_offset [])).flatten =
      (c.drop o).take ((ents.map (fun i => i.data_size)).sum) := by
  induction ents with
  | nil => intro c o _; simp [assignOffsets]
  | cons i rest ih =>
    intro c o hb
    simp only [List.map_cons, List.sum_cons] at hb ⊢
    simp only [assignOffsets, List.map_cons, List.flatten_cons]
    have h1 : exportChunks (i.data_size + 1) c o i.data_size o [] =
        [] ++ (c.drop o).take (o + i.data_size - o) := by
      exact exportChunks_eq (i.data_size + 1) c o i.data_size o [] (by omega)
        (le_refl o) (by omega) (by omega)
    rw [h1, List.nil_append]
    rw [ih c (o + i.data_size) (by omega)]
    have hoo : o + i.data_size - o = i.data_size := by omega
    rw [hoo]
    have hdd : c.drop (o + i.data_size) = (c.drop o).drop i.data_size := by
      rw [List.drop_drop]
    rw [hdd, ← List.take_add]

theorem insertionSort_filedict (l : List (List Nat × PboInfo))
    (hs : List.Pairwise (fun a b => a < b) (l.map (·.1))) :
    List.insertionSort pairLe l = l := by
  apply List.Sorted.insertionSort_eq
  have hp := (List.pairwise_map).mp hs
  exact hp.imp (fun h => le_of_lt h)

theorem hexDig_ne_x : ∀ n < 16, hexDig n ≠ 'x' := by decide

theorem pyInt16_toHex (l : List Nat) (hlt : ∀ b ∈ l, b < 256) :
    pyInt16 (toHex l) = beVal l := by
  cases l with
  | nil => rfl
  | cons b rest =>
    have hform : toHex (b :: rest) =
        hexDig (b / 16) :: hexDig (b % 16) :: toHex rest := by
      simp [toHex, toHexByte]
    have hx : hexDig (b % 16) ≠ 'x' := hexDig_ne_x _ (by omega)
    have hfold : pyInt16 (toHex (b :: rest)) = hexFold (toHex (b :: rest)) := by
      rw [hform]
      unfold pyInt16
      split
      · next heq =>
        exfalso
        have := (List.cons.inj (List.cons.inj heq).2).1
        exact hx this
      · rfl
    rw [hfold]
    exact hexFold_toHex _ hlt

theorem trailer_digest (msg : List Nat) :
    beBytes (pyInt16 (toHex (sha1 msg))) 20 = sha1 msg := by
  rw [pyInt16_toHex _ (sha1_lt msg)]
  have h := beBytes_beVal (sha1 msg) (sha1_lt msg)
  rw [sha1_length] at h
  exact h

/-- C2: reading a valid PBO whose index is stored in strictly ascending
(lexicographic) filename order and writing it back reproduces the input
byte for byte.  Validity is: the stream parses, the leading record name
is empty (the initial NUL), the 20 skipped padding bytes are NUL, the
remaining stream holds exactly the members' data plus the 21-byte
trailer, and the trailer is a NUL plus the SHA-1 of everything before
it. -/
theorem C2_read_write_roundtrip (F : List Nat) (p : PboFile)
    (emptyB rest : List Nat)
    (hparse : fromFileAux F = some (p, emptyB, rest))
    (hbytes : ∀ b ∈ F, b < 256)
    (hname : p.header_name = [])
    (hsorted : List.Pairwise (fun a b => a.1 < b.1) p.filedict)
    (hempty : emptyB = List.replicate 20 0)
    (hrest : rest.length = ((p.infolist.map (fun i => i.data_size)).sum) + 21)
    (htrail : rest.drop ((p.infolist.map (fun i => i.data_size)).sum) =
      0 :: sha1 (F.take (F.length - 21))) :
    p._export = F := by
  unfold fromFileAux at hparse
  cases h1 : unpack_asciiz F with
  | none => rw [h1] at hparse; exact absurd hparse (by simp)
  | some pr1 =>
  obtain ⟨name0, s1⟩ := pr1
  rw [h1] at hparse
  dsimp only at hparse
  cases h2 : readN s1 20 with
  | none => rw [h2] at hparse; exact absurd hparse (by simp)
  | some pr2 =>
  obtain ⟨hb20, s2⟩ := pr2
  rw [h2] at hparse
  dsimp only at hparse
  cases h3 : parseExtPairs (s2.length + 1) s2 with
  | none => rw [h3] at hparse; exact absurd hparse (by simp)
  | some pr3 =>
  obtain ⟨ext, s3⟩ := pr3
  rw [h3] at hparse
  dsimp only at hparse
  cases h4 : parseEntries (s3.length + 1) s3 with
  | none => rw [h4] at hparse; exact absurd hparse (by simp)
  | some pr4 =>
  obtain ⟨ents, s4⟩ := pr4
  rw [h4] at hparse
  dsimp only at hparse
  simp only [Option.some.injEq, Prod.mk.injEq] at hparse
  obtain ⟨hp, hemp, hr5⟩ := hparse
  subst hp
  subst hemp
  subst hr5
  dsimp only at hname hsorted hrest htrail
  subst hname
  have e1 : F = 0 :: s1 := by
    have := unpack_asciiz_eq F [] s1 h1
    simpa using this
  obtain ⟨e2, e2len⟩ := readN_eq s1 20 hb20 s2 h2
  have e3 : s2 = extBytes ext ++ 0 :: s3 := parseExtPairs_eq _ s2 ext s3 h3
  have hs3lt : ∀ x ∈ s3, x < 256 := by
    intro x hx
    apply hbytes
    rw [e1, e2, e3]
    simp [hx]
  have e4 : s3 = (ents.map entryBytes).flatten ++ 0 :: s4 :=
    parseEntries_eq _ s3 ents s4 hs3lt h4
  have hb20lt : ∀ x ∈ hb20, x < 256 := by
    intro x hx
    apply hbytes
    rw [e1, e2]
    simp [hx]
  have hs4split : s4 = List.replicate 20 0 ++ s4.drop 20 := by
    conv_lhs => rw [← List.take_append_drop 20 s4]
    rw [hempty]
  have hF : F = ([0] ++ hb20 ++ extBytes ext ++ [0] ++
      (ents.map entryBytes).flatten ++ ([0] ++ List.replicate 20 0)) ++
      s4.drop 20 := by
    rw [e1, e2, e3, e4]
    conv_lhs => rw [hs4split]
    simp [List.append_assoc]
  set HDR := [0] ++ hb20 ++ extBytes ext ++ [0] ++
    (ents.map entryBytes).flatten ++ ([0] ++ List.replicate 20 0) with hHDR
  set s5 := s4.drop 20 with hs5
  set dA := F.length - s5.length with hdA
  set total := (ents.map (fun i => i.data_size)).sum with htotal
  have hsum : ((((assignOffsets dA ents).map (fun i => (i.filename, i))).map
      (fun kv => kv.2)).map (fun i => i.data_size)).sum = total := by
    rw [List.map_map, List.map_map]
    have : (((fun i => i.data_size) ∘ (fun kv => kv.2)) ∘
        (fun i : PboInfo => (i.filename, i))) =
        (fun i : PboInfo => i.data_size) := rfl
    rw [this, htotal]
    exact congrArg List.sum (assignOffsets_sizes ents dA)
  rw [PboFile.infolist, hsum] at hrest htrail
  have hlenF : F.length = HDR.length + s5.length := by
    rw [hF]
    simp
  have hdAhdr : dA = HDR.length := by omega
  have hdrop : F.drop dA = s5 := by
    rw [hF, hdAhdr]
    exact List.drop_left HDR s5
  have hs5len : s5.length = total + 21 := hrest
  have hbound : dA + total ≤ F.length := by omega
  have htake21 : F.take (F.length - 21) = HDR ++ s5.take total := by
    have hidx : F.length - 21 = HDR.length + total := by omega
    rw [hidx, hF, List.take_append_eq_append_take,
      List.take_of_length_le (by omega)]
    congr 1
    congr 1
    omega
  have hmapsnd : (((assignOffsets dA ents).map (fun i => (i.filename, i))).map
      (fun kv => entryBytes kv.2)) = ents.map entryBytes := by
    rw [List.map_map]
    have : ((fun kv : List Nat × PboInfo => entryBytes kv.2) ∘
        (fun i : PboInfo => (i.filename, i))) = entryBytes := rfl
    rw [this]
    exact assignOffsets_map_entryBytes ents dA
  have hpayload : (((assignOffsets dA ents).map (fun i => (i.filename, i))).map
      (fun kv => exportChunks (kv.2.data_size + 1) F kv.2.data_offset
        kv.2.data_size kv.2.data_offset [])).flatten = s5.take total := by
    rw [List.map_map]
    have hcomp : ((fun kv : List Nat × PboInfo =>
        exportChunks (kv.2.data_size + 1) F kv.2.data_offset kv.2.data_size
          kv.2.data_offset []) ∘ (fun i : PboInfo => (i.filename, i))) =
        (fun i => exportChunks (i.data_size + 1) F i.data_offset i.data_size
          i.data_offset []) := rfl
    rw [hcomp]
    have := payload_flatten ents F dA (by omega)
    rw [this, hdrop, htotal]
  have hpack : le32 (parse5 hb20).1 ++ (le32 (parse5 hb20).2.1 ++
      (le32 (parse5 hb20).2.2.1 ++ (le32 (parse5 hb20).2.2.2.1 ++
        le32 (parse5 hb20).2.2.2.2))) = hb20 :=
    pack5_parse5 hb20 e2len hb20lt
  have hsort : List.insertionSort pairLe ((assignOffsets dA ents).map
      (fun i => (i.filename, i))) = (assignOffsets dA ents).map
      (fun i => (i.filename, i)) := by
    apply List.Sorted.insertionSort_eq
    exact hsorted.imp (fun h => le_of_lt h)
  have htraileq : s5.drop total = 0 :: sha1 (HDR ++ s5.take total) := by
    rw [← htake21]
    exact htrail
  unfold PboFile._export
  dsimp only
  rw [hsort, hmapsnd, hpayload, trailer_digest]
  have hfin : F = HDR ++ s5.take total ++ ([0] ++
      sha1 (HDR ++ s5.take total)) := by
    conv_lhs => rw [hF]
    conv_lhs => rw [← List.take_append_drop total s5]
    rw [htraileq]
    simp [List.append_assoc]
  rw [hfin]
  rw [hHDR]
  simp only [packS1, List.replicate]
  simp [List.append_assoc, hpack]

/-- C4 witness: the sorted-names theorem applied to the sample archive
with the explicit sorted member list. -/
theorem C4_namehash_sorted_names_witness :
    samplePbo._namehash =
      sha1 (([infoA, infoB].map (fun i => lowerB i.filename)).flatten) :=
  (C4_namehash_sorted_names samplePbo).1 [infoA, infoB] (by decide) (by decide)

/-- C3 witness: the filehash-selection theorem applied to the sample
archive with version 3 (only `a.sqf` qualifies). -/
theorem C3_filehash_selection_witness :
    samplePbo._filehash 3 = some (sha1 (
      if samplePbo.infolist.filter (fun i => specFileQual 3 i) = [] then
        (if 3 = 2 then bNothing else bGnihton)
      else ((samplePbo.infolist.filter (fun i => specFileQual 3 i)).map
        (fun i => (samplePbo.content.drop i.data_offset).take
          i.data_size)).flatten)) :=
  C3_filehash_selection samplePbo 3 (Or.inr rfl) (by decide)

/-- C2 witness: the sample archive parses to `samplePbo` and exporting
it reproduces the bytes exactly. -/
theorem C2_read_write_roundtrip_witness : samplePbo._export = sampleF :=
  C2_read_write_roundtrip sampleF samplePbo (List.replicate 20 0)
    ([10, 20, 1, 2, 3] ++ 0 :: sha1 sampleBody)
    (by decide) (by decide) rfl (by decide) rfl (by decide) (by decide)

/-- C5 witness: the hash2/hash3 composition theorem applied to the
sample archive at version 3. -/
theorem C5_hash2_hash3_composition_witness :
    samplePbo.hash 0 3 = (samplePbo._filehash 3).map (fun fh =>
        (sha1 (samplePbo.content.take (samplePbo.content.length - 21)),
         sha1 (sha1 (samplePbo.content.take (samplePbo.content.length - 21)) ++
           samplePbo._namehash ++
           (match samplePbo.header_extension.lookup keyPfx with
            | some pv => pv ++ [92]
            | none => [])),
         sha1 (fh ++ samplePbo._namehash ++
           (match samplePbo.header_extension.lookup keyPfx with
            | some pv => pv ++ [92]
            | none => [])))) ∧
      (samplePbo._filehash 3).isSome = true :=
  C5_hash2_hash3_composition samplePbo 0 3 (by decide) (Or.inr rfl)

theorem padding_decomp (d : List Nat) (hd : d.length = 20)
    (hlt : ∀ b ∈ d, b < 256) (k : Nat) :
    padding (toHex d) k =
      hexFold (['0','0','0','1'] ++
        (List.replicate (k - 38) (['f','f'] : List Char)).flatten ++
        ['0','0'] ++ digestInfoHex) * 16 ^ 40 + beVal d := by
  unfold padding
  have hcnt : k - (toHex d).length / 2 - 3 - 15 = k - 38 := by
    rw [toHex_length, hd]
    omega
  rw [hcnt]
  have hred : pyInt16 (['0','x'] ++ ['0','0','0','1'] ++
      (List.replicate (k - 38) (['f','f'] : List Char)).flatten ++
      ['0','0'] ++ digestInfoHex ++ toHex d) =
      hexFold (['0','0','0','1'] ++
        (List.replicate (k - 38) (['f','f'] : List Char)).flatten ++
        ['0','0'] ++ digestInfoHex ++ toHex d) := rfl
  rw [hred, hexFold_append, toHex_length, hd, hexFold_toHex d hlt]

theorem padding_inj (d d' : List Nat) (hd : d.length = 20)
    (hd' : d'.length = 20) (hlt : ∀ b ∈ d, b < 256)
    (hlt' : ∀ b ∈ d', b < 256) (k : Nat)
    (h : padding (toHex d) k = padding (toHex d') k) : d = d' := by
  rw [padding_decomp d hd hlt k, padding_decomp d' hd' hlt' k] at h
  have b1 := beVal_lt d hlt
  have b2 := beVal_lt d' hlt'
  rw [hd] at b1
  rw [hd'] at b2
  have h16 : (256 : Nat) ^ 20 = 16 ^ 40 := by norm_num
  rw [h16] at b1 b2
  have hv : beVal d = beVal d' := by omega
  have e1 := beBytes_beVal d hlt
  have e2 := beBytes_beVal d' hlt'
  rw [hd] at e1
  rw [hd'] at e2
  rw [← e1, ← e2, hv]

theorem getD_take (l : List Nat) (n j : Nat) (h : j < n) :
    (l.take n).getD j 0 = l.getD j 0 := by
  by_cases hl : j < l.length
  · have h1 : j < (l.take n).length := by
      rw [List.length_take]
      omega
    rw [List.getD_eq_getElem _ _ h1, List.getD_eq_getElem _ _ hl]
    exact List.getElem_take _
  · rw [List.getD_eq_default _ _ (by rw [List.length_take]; omega),
      List.getD_eq_default _ _ (by omega)]

theorem take_drop_agree (c c' : List Nat) (hlen : c.length = c'.length)
    (j : Nat) (hagree : ∀ i, i ≠ j → c.getD i 0 = c'.getD i 0)
    (dOff dSize : Nat) (hout : j < dOff ∨ dOff + dSize ≤ j) :
    (c.drop dOff).take dSize = (c'.drop dOff).take dSize := by
  apply List.ext_getElem
  · simp [hlen]
  · intro i h1 h2
    rw [List.length_take, List.length_drop] at h1
    have hi : dOff + i < c.length := by omega
    have hi' : dOff + i < c'.length := by omega
    have hne : dOff + i ≠ j := by omega
    have hg := hagree (dOff + i) hne
    rw [List.getD_eq_getElem _ _ hi, List.getD_eq_getElem _ _ hi'] at hg
    rw [List.getElem_take, List.getElem_drop, List.getElem_take,
      List.getElem_drop]
    exact hg

/-- C8 amended: flipping one payload byte (all other bytes, the index and
the header extension unchanged) changes the input of hash1; the namehash
is unchanged; whenever the hash1 digests differ (no SHA-1 collision) the
preimage of hash2 differs, so hash2 changes absent a further collision
(the concrete counterexample shows it does change); hash3 is unchanged
when no filehash-selected member contains the flipped byte; and a
signature that verified for the original archive is rejected with exit
status 1 for the flipped one. -/
theorem C8_payload_flip_amended (p p' : PboFile) (v : Nat)
    (hfd : p'.filedict = p.filedict)
    (hhe : p'.header_extension = p.header_extension)
    (hlen : p'.content.length = p.content.length)
    (h21 : 21 ≤ p.content.length) (hv : v = 2 ∨ v = 3)
    (hbounds : ∀ i ∈ p.infolist, i.data_offset + i.data_size ≤
      p.content.length)
    (j : Nat) (hj : j < p.content.length - 21)
    (hdiffj : p.content.getD j 0 ≠ p'.content.getD j 0)
    (hagree : ∀ i, i ≠ j → p.content.getD i 0 = p'.content.getD i 0) :
    p.content.take (p.content.length - 21) ≠
        p'.content.take (p'.content.length - 21) ∧
      p'._namehash = p._namehash ∧
      (sha1 (p.content.take (p.content.length - 21)) ≠
          sha1 (p'.content.take (p'.content.length - 21)) →
        sha1 (p.content.take (p.content.length - 21)) ++ p._namehash ++
            pfxInject p ≠
          sha1 (p'.content.take (p'.content.length - 21)) ++ p'._namehash ++
            pfxInject p') ∧
      ((∀ i ∈ p.infolist, i.check_file_hash v = true →
          j < i.data_offset ∨ i.data_offset + i.data_size ≤ j) →
        (p.hash 0 v).map (fun t => t.2.2) =
          (p'.hash 0 v).map (fun t => t.2.2)) ∧
      (sha1 (p.content.take (p.content.length - 21)) ≠
          sha1 (p'.content.take (p'.content.length - 21)) →
        ∀ bitlen e n s1 s2 s3 : Nat,
          verifyExit p bitlen e n s1 s2 s3 v = some 0 →
          verifyExit p' bitlen e n s1 s2 s3 v = some 1) := by
  have h21' : 21 ≤ p'.content.length := by omega
  have hnm : p'._namehash = p._namehash := by
    unfold PboFile._namehash PboFile.infolist
    rw [hfd]
  have hX : pfxInject p' = pfxInject p := by
    unfold pfxInject
    rw [hhe]
  have hinfo : p'.infolist = p.infolist := by
    unfold PboFile.infolist
    rw [hfd]
  have htne : p.content.take (p.content.length - 21) ≠
      p'.content.take (p'.content.length - 21) := by
    intro heq
    have := congrArg (fun l => l.getD j 0) heq
    dsimp only at this
    rw [getD_take _ _ _ hj, hlen, getD_take _ _ _ (by omega)] at this
    exact hdiffj this
  have hfheq : (∀ i ∈ p.infolist, i.check_file_hash v = true →
      j < i.data_offset ∨ i.data_offset + i.data_size ≤ j) →
      p._filehash v = p'._filehash v := by
    intro havoid
    unfold PboFile._filehash
    rw [if_pos hv, if_pos hv, hinfo]
    have hmc : ∀ i ∈ p.infolist, i.check_file_hash v = true →
        memberChunks (i.data_size + 1) p.content i.data_offset i.data_size
          i.data_offset [] =
        memberChunks (i.data_size + 1) p'.content i.data_offset i.data_size
          i.data_offset [] := by
      intro i hi hc
      have hb := hbounds i hi
      rw [memberChunks_eq (i.data_size + 1) p.content i.data_offset
        i.data_size i.data_offset [] hb (le_refl _) (by omega) (by omega)]
      rw [memberChunks_eq (i.data_size + 1) p'.content i.data_offset
        i.data_size i.data_offset [] (by omega) (le_refl _) (by omega)
        (by omega)]
      have hslice := take_drop_agree p.content p'.content hlen.symm j hagree
        i.data_offset (i.data_offset + i.data_size - i.data_offset)
        (by have := havoid i hi hc; omega)
      rw [hslice]
    have hmapeq : (p.infolist.filter (fun i => i.check_file_hash v)).map
        (fun i => memberChunks (i.data_size + 1) p.content i.data_offset
          i.data_size i.data_offset []) =
        (p.infolist.filter (fun i => i.check_file_hash v)).map
        (fun i => memberChunks (i.data_size + 1) p'.content i.data_offset
          i.data_size i.data_offset []) := by
      apply List.map_congr_left
      intro i hif
      have hm := List.mem_filter.mp hif
      exact hmc i hm.1 hm.2
    rw [filehash_fold, filehash_fold]
    dsimp only
    rw [hmapeq]
  refine ⟨htne, hnm, ?_, ?_, ?_⟩
  · intro hnc heq
    rw [hnm, hX] at heq
    have h1 := List.append_cancel_right heq
    have h2 := List.append_cancel_right h1
    exact hnc h2
  · intro havoid
    rcases hash_some p 0 v h21 hv with ⟨fh, hfh, hhash⟩
    rcases hash_some p' 0 v h21' hv with ⟨fh', hfh', hhash'⟩
    have hfe : fh = fh' := by
      have := hfheq havoid
      rw [hfh, hfh'] at this
      exact Option.some.inj this
    rw [hhash, hhash']
    dsimp only [Option.map_some']
    rw [hfe, hnm, hX]
  · intro hnc bitlen e n s1 s2 s3 hver
    rcases hash_some p 0 v h21 hv with ⟨fh, hfh, hhash⟩
    rcases hash_some p' 0 v h21' hv with ⟨fh', hfh', hhash'⟩
    unfold verifyExit at hver ⊢
    rw [hhash] at hver
    rw [hhash']
    dsimp only at hver ⊢
    set d1 := sha1 (p.content.take (p.content.length - 21)) with hd1
    set d1' := sha1 (p'.content.take (p'.content.length - 21)) with hd1'
    have hv1 : rsaVerify (padding (toHex d1) (bitlen / 8)) s1 e n = true := by
      by_contra hc
      rw [Bool.not_eq_true] at hc
      rw [hc] at hver
      simp at hver
    have hv1eq : padding (toHex d1) (bitlen / 8) = s1 ^ e % n := by
      have := hv1
      unfold rsaVerify at this
      exact beq_iff_eq.mp this
    have hv1' : rsaVerify (padding (toHex d1') (bitlen / 8)) s1 e n = false := by
      by_contra hc
      rw [Bool.not_eq_false] at hc
      have heq' : padding (toHex d1') (bitlen / 8) = s1 ^ e % n := by
        unfold rsaVerify at hc
        exact beq_iff_eq.mp hc
      have hpad : padding (toHex d1') (bitlen / 8) =
          padding (toHex d1) (bitlen / 8) := by
        rw [heq', hv1eq]
      have := padding_inj d1' d1 (sha1_length _) (sha1_length _)
        (sha1_lt _) (sha1_lt _) (bitlen / 8) hpad
      exact hnc this.symm
    rw [hv1']
    rfl

/-- C8 counterexample: the two sample archives differ in exactly one
payload byte (index 105, `10` versus `11`), yet their hash2 values are
different — hash2 is built from hash1's digest, so it cannot stay
unchanged when the payload changes. -/
theorem C8_hash2_not_unchanged :
    sampleFX = sampleF.set 105 11 ∧
      (samplePbo.hash 0 3).map (fun t => t.2.1) ≠
        (samplePboX.hash 0 3).map (fun t => t.2.1) := by
  constructor
  · decide
  · decide

/-- C8 amended witness: the amended theorem applied to the sample pair,
with the flipped byte at index 105. -/
theorem C8_payload_flip_amended_witness :
    samplePbo.content.take (samplePbo.content.length - 21) ≠
        samplePboX.content.take (samplePboX.content.length - 21) ∧
      samplePboX._namehash = samplePbo._namehash ∧
      (sha1 (samplePbo.content.take (samplePbo.content.length - 21)) ≠
          sha1 (samplePboX.content.take (samplePboX.content.length - 21)) →
        sha1 (samplePbo.content.take (samplePbo.content.length - 21)) ++
            samplePbo._namehash ++ pfxInject samplePbo ≠
          sha1 (samplePboX.content.take (samplePboX.content.length - 21)) ++
            samplePboX._namehash ++ pfxInject samplePboX) ∧
      ((∀ i ∈ samplePbo.infolist, i.check_file_hash 3 = true →
          105 < i.data_offset ∨ i.data_offset + i.data_size ≤ 105) →
        (samplePbo.hash 0 3).map (fun t => t.2.2) =
          (samplePboX.hash 0 3).map (fun t => t.2.2)) ∧
      (sha1 (samplePbo.content.take (samplePbo.content.length - 21)) ≠
          sha1 (samplePboX.content.take (samplePboX.content.length - 21)) →
        ∀ bitlen e n s1 s2 s3 : Nat,
          verifyExit samplePbo bitlen e n s1 s2 s3 3 = some 0 →
          verifyExit samplePboX bitlen e n s1 s2 s3 3 = some 1) := by
  have hset : sampleFX = sampleF.set 105 11 := by decide
  apply C8_payload_flip_amended samplePbo samplePboX 3 rfl rfl (by decide)
    (by decide) (Or.inr rfl) (by decide) 105 (by decide) (by decide)
  intro i hi
  show sampleF.getD i 0 = sampleFX.getD i 0
  rw [hset]
  unfold List.getD
  rw [List.get?_set_ne 11 sampleF (by omega)]

end A3
